import Mathlib

/-!
Verification of the buddy allocator in `src/buddy.c`.

The metadata ("status") tree is a byte array holding four 2-bit node
statuses per byte.  We model the byte array as a total function
`Nat → Nat`; every byte the allocator writes is `< 256`.

Machine-integer details of the C source are modelled explicitly:
* `unsigned int` / `uint32_t` arithmetic is Nat arithmetic `% 2^32`
  where wrap-around can actually occur (`buddy_from_buffer`'s
  `level - min_level` subtraction, `next_pow_of_2`'s truncation of a
  `size_t` request to 32 bits, and its `x+1` overflow);
* loops are written as recursions; the iterative descent/backtrack of
  `buddy_alloc` becomes the standard left-then-right recursion it
  implements, and the upward walks `_mark_parent`, `_combine` and the
  demote loop inside `_combine` recurse on an explicit depth argument
  (the fuel equals the depth of the starting node, which is exactly the
  number of iterations the C loop can make before reaching the root);
* the C functions have undefined behaviour when the computed allocation
  unit `size` is not a positive `int` (out-of-bounds reads / infinite
  descent) and when a SPLIT/FULL status is seen at maximum depth inside
  `buddy_free` (never happens on well-formed pools); at exactly those
  points the model returns a failure value, and all theorems about such
  inputs carry hypotheses keeping them in the defined-behaviour range.
-/

namespace BuddyAlloc

/-! ## Status constants (`#define NODE_*` in buddy.c) -/

def NODE_UNUSED : Nat := 0
def NODE_USED : Nat := 1
def NODE_SPLIT : Nat := 2
def NODE_FULL : Nat := 3

/-- The status-tree byte array, as a total function from byte index to
byte value. -/
def Tree : Type := Nat → Nat

/-- `memset(self->tree, 0, md_size)`: the freshly zeroed byte array. -/
def zeroTree : Tree := fun _ => 0

/-- `_get_index_status`: `(tree[index >> 2] >> ((index & 3) * 2)) & 3`. -/
def getStatus (t : Tree) (index : Nat) : Nat :=
  (t (index >>> 2) >>> ((index &&& 3) * 2)) &&& 3

/-- `_set_index_status`:
`old = tree[index >> 2] & ~(3 << ((index & 3) * 2));`
`tree[index >> 2] = old | (status << ((index & 3) * 2));`
The `&` with the int-level complement `~(3 << sh)` followed by the
truncating store into a `uint8_t` equals `&&& (255 ^^^ (3 <<< sh))`. -/
def setStatus (t : Tree) (index status : Nat) : Tree :=
  fun j =>
    if j = index >>> 2 then
      (t j &&& (255 ^^^ (3 <<< ((index &&& 3) * 2)))) |||
        (status <<< ((index &&& 3) * 2))
    else t j

/-! ## Size rounding (`is_pow_of_2`, `next_pow_of_2`) -/

/-- `is_pow_of_2`: `!(x & (x-1))` on `uint32_t` (true at `0` as well,
matching the C: `0 & 0xffffffff == 0`; Nat's truncating `0 - 1 = 0`
gives the same result). -/
def is_pow_of_2 (x : Nat) : Bool := (x &&& (x - 1)) == 0

/-- `next_pow_of_2` (the portable branch of the source; the argument is
a `uint32_t`, so a `size_t` request is truncated to 32 bits here, and
the final `x+1` wraps at `2^32`). -/
def next_pow_of_2 (x : Nat) : Nat :=
  let x := x % 2 ^ 32
  if is_pow_of_2 x then x
  else
    let x := x ||| (x >>> 1)
    let x := x ||| (x >>> 2)
    let x := x ||| (x >>> 4)
    let x := x ||| (x >>> 8)
    let x := x ||| (x >>> 16)
    (x + 1) % 2 ^ 32

/-- The allocation unit `size` computed at the top of `buddy_alloc`, in
minimum-block units:
`if s <= (1 << min_level)  size = 1;  else  size = next_pow_of_2(s) >> min_level;`.
(The C casts `next_pow_of_2(s)` to `int`; for results `< 2^31` — all
defined-behaviour executions — the cast is the identity.) -/
def allocUnit (min_level : Nat) (s : Nat) : Nat :=
  if s ≤ 2 ^ min_level then 1 else next_pow_of_2 s >>> min_level

/-! ## Index arithmetic -/

/-- `_index_offset`:
`(((index + 1) - (1 << level)) << (max_level - level)) << min_level`. -/
def indexOffset (min_level lvl index level : Nat) : Nat :=
  (((index + 1) - 2 ^ level) <<< (lvl - level)) <<< min_level

/-- `index - 1 + (index & 1) * 2`: the sibling ("buddy") of a node.  In
C this is `-1` at the root; all uses guard with `buddy > 0` resp.
`buddy < 0`, and Nat's truncating subtraction gives `0` at the root,
which the same guards reject identically. -/
def buddyIdx (index : Nat) : Nat := index - 1 + (index &&& 1) * 2

/-- `(index + 1) / 2 - 1`: the parent of a node (only used at
`index ≥ 1`, where it matches the C `int` arithmetic). -/
def parentIdx (index : Nat) : Nat := (index + 1) / 2 - 1

/-! ## `_mark_parent` -/

/-- `_mark_parent`: walk upward from `index`; while the buddy is USED or
FULL, mark the parent FULL and continue from it.  The fuel is the depth
of `index`: the loop makes at most `depth` steps, and at the root the
`buddy > 0` test fails (`buddyIdx 0 = 0`), so fuel `0` returning `t`
agrees with the source. -/
def markParent : Tree → Nat → Nat → Tree
  | t, _, 0 => t
  | t, index, f + 1 =>
    if 0 < buddyIdx index ∧
        (getStatus t (buddyIdx index) = NODE_USED ∨
          getStatus t (buddyIdx index) = NODE_FULL) then
      markParent (setStatus t (parentIdx index) NODE_FULL) (parentIdx index) f
    else t

/-! ## `buddy_alloc` -/

/-- The search loop of `buddy_alloc`, written as the left-then-right
descent the iterative backtracking implements.  `index` is the current
node, `level` its depth, `d = lvl - level` (so the block length at this
node is `2^d` units, the C variable `length`).  On success the found
node is marked USED, `_mark_parent` runs, and the byte offset
`_index_offset(index, level, lvl)` is returned — exactly the actions
the source performs at its return point, after which the loop frames
are only unwound. -/
def allocAt (min_level lvl : Nat) :
    Tree → Nat → Nat → Nat → Nat → Option Nat × Tree
  | t, size, index, level, d =>
    if size = 2 ^ d then
      if getStatus t index = NODE_UNUSED then
        (some (indexOffset min_level lvl index level),
          markParent (setStatus t index NODE_USED) index level)
      else (none, t)
    else
      match d with
      | 0 => (none, t) -- C: unreachable while `1 ≤ size ≤ length`
      | d' + 1 =>
        if getStatus t index = NODE_USED ∨ getStatus t index = NODE_FULL then
          (none, t)
        else
          -- `case NODE_UNUSED:` split first, then fall through and descend
          let t1 :=
            if getStatus t index = NODE_UNUSED then
              setStatus
                (setStatus (setStatus t index NODE_SPLIT)
                  (2 * index + 1) NODE_UNUSED)
                (2 * index + 2) NODE_UNUSED
            else t
          match allocAt min_level lvl t1 size (2 * index + 1) (level + 1) d' with
          | (some off, t2) => (some off, t2)
          | (none, t2) =>
            allocAt min_level lvl t2 size (2 * index + 2) (level + 1) d'

/-- `buddy_alloc` for a pool with parameters `min_level` and
`lvl = total_level - min_level`; returns the byte offset of the
allocated block (the C function returns `tree + offset`). -/
def buddy_alloc (min_level lvl : Nat) (t : Tree) (s : Nat) :
    Option Nat × Tree :=
  let size := allocUnit min_level s
  if 2 ^ lvl < size then (none, t)
  else allocAt min_level lvl t size 0 0 lvl

/-! ## `_combine` and `buddy_free` -/

/-- The demote loop at the end of `_combine`:
`while (((index = (index+1)/2 - 1) >= 0) && status == NODE_FULL) set SPLIT`.
Fuel is the depth of `index`. -/
def demoteFull : Tree → Nat → Nat → Tree
  | t, index, f =>
    if index = 0 then t
    else if getStatus t (parentIdx index) = NODE_FULL then
      match f with
      | 0 => t
      | f' + 1 => demoteFull (setStatus t (parentIdx index) NODE_SPLIT) (parentIdx index) f'
    else t

/-- `_combine`: walk up while the buddy is UNUSED; at the stopping node
(`buddy < 0`, i.e. the root, or buddy not UNUSED) mark it UNUSED and
demote FULL ancestors to SPLIT.  Fuel is the depth of `index`. -/
def combine : Tree → Nat → Nat → Tree
  | t, index, f =>
    if index = 0 ∨ getStatus t (buddyIdx index) ≠ NODE_UNUSED then
      demoteFull (setStatus t index NODE_UNUSED) index f
    else
      match f with
      | 0 => t -- C: unreachable, fuel is the depth of `index`
      | f' + 1 => combine t (parentIdx index) f'

/-- The descent loop of `buddy_free`.  `off` is the unit offset being
freed, `left` the unit offset of the current node `index`, `level` its
depth and `d = lvl - level`.  `none` models a failed `assert`:
`assert(offset == left)` at a USED node and `assert(0)` at an UNUSED
node.  (The `d = 0` case with a SPLIT/FULL status is unreachable on
well-formed pools; there the C loop would read out of bounds.) -/
def freeAt : Tree → Nat → Nat → Nat → Nat → Nat → Option Tree
  | t, off, left, index, level, d =>
    if getStatus t index = NODE_USED then
      if off = left then some (combine t index level) else none
    else if getStatus t index = NODE_UNUSED then none
    else
      match d with
      | 0 => none
      | d' + 1 =>
        if off < left + 2 ^ d' then
          freeAt t off left (2 * index + 1) (level + 1) d'
        else
          freeAt t off (left + 2 ^ d') (2 * index + 2) (level + 1) d'

/-- `buddy_free`: `b` is the byte offset `ptr - (char*)self->tree`; the
C computes the unit offset `b >> min_level` and asserts
`0 <= offset < (1 << self->level)` before descending. -/
def buddy_free (min_level lvl : Nat) (t : Tree) (b : Nat) : Option Tree :=
  let off := b >>> min_level
  if off < 2 ^ lvl then freeAt t off 0 0 0 lvl else none

/-! ## Construction (`buddy_from_buffer`) -/

/-- `buddy_from_buffer` (and hence `buddy_new`) up to the raw-buffer
plumbing: the constructibility test and the initial state of the status
tree.  `level` and `min_level` are C `unsigned int`s:
`self->level = level - min_level` wraps modulo `2^32`.  On success the
tree region is zeroed and the metadata space
`md_size = 1 << (self->level - 1)` bytes is reserved by an internal
`buddy_alloc` (for a wrapped `self->level` the C shift is undefined
behaviour; the model uses the mathematical `2^(lv-1)`). -/
def buddy_from_buffer (level min_level : Nat) : Option Tree :=
  let lv := ((level % 2 ^ 32) + 2 ^ 32 - min_level % 2 ^ 32) % 2 ^ 32
  if lv < 2 ∨ min_level % 2 ^ 32 < 4 then none
  else some ((buddy_alloc (min_level % 2 ^ 32) lv zeroTree (2 ^ (lv - 1))).2)

/-- The status tree of a freshly constructed pool with tree parameters
`min_level` and `lvl = total_level - min_level`. -/
def freshTree (min_level lvl : Nat) : Tree :=
  (buddy_alloc min_level lvl zeroTree (2 ^ (lvl - 1))).2

/-! ## Status codec lemmas -/

theorem and_three_eq_mod (x : Nat) : x &&& 3 = x % 4 := by
  simpa using Nat.and_pow_two_sub_one_eq_mod x 2

theorem shiftRight_two_eq_div (x : Nat) : x >>> 2 = x / 4 := by
  simpa using Nat.shiftRight_eq_div_pow x 2

theorem and_mask_mod256 (b m : Nat) (hm : m < 256) :
    b &&& m = b % 256 &&& m := by
  have h1 : 255 &&& m = m := by
    rw [Nat.land_comm]
    simpa [Nat.mod_eq_of_lt hm] using Nat.and_pow_two_sub_one_eq_mod m 8
  have h2 : b &&& 255 = b % 256 := by
    simpa using Nat.and_pow_two_sub_one_eq_mod b 8
  calc b &&& m = b &&& (255 &&& m) := by rw [h1]
    _ = (b &&& 255) &&& m := (Nat.land_assoc b 255 m).symm
    _ = b % 256 &&& m := by rw [h2]

theorem shift_and_three_mod256 (b k : Nat) (hk : k < 4) :
    (b >>> (k * 2)) &&& 3 = ((b % 256) >>> (k * 2)) &&& 3 := by
  rw [and_three_eq_mod, and_three_eq_mod, Nat.shiftRight_eq_div_pow,
    Nat.shiftRight_eq_div_pow, ← Nat.mod_mul_right_div_self, ← Nat.mod_mul_right_div_self]
  congr 1
  refine (Nat.mod_mod_of_dvd b ?_).symm
  have h1 : 2 ^ (k * 2) * 4 = 2 ^ (k * 2 + 2) := by rw [pow_add]; norm_num
  have h2 : (2 : Nat) ^ (k * 2 + 2) ∣ 2 ^ 8 := Nat.pow_dvd_pow 2 (by omega)
  rw [h1]
  simpa using h2

theorem mask_lt_256 : ∀ k < 4, 255 ^^^ (3 <<< (k * 2)) < 256 := by decide

set_option maxRecDepth 4000

theorem codec_same_core :
    ∀ b < 256, ∀ st < 4, ∀ k < 4,
      (((b &&& (255 ^^^ (3 <<< (k * 2)))) ||| (st <<< (k * 2))) >>> (k * 2)) &&& 3 = st := by
  decide

theorem codec_other_core :
    ∀ b < 256, ∀ st < 4, ∀ k < 4, ∀ j < 4, j ≠ k →
      (((b &&& (255 ^^^ (3 <<< (k * 2)))) ||| (st <<< (k * 2))) >>> (j * 2)) &&& 3 =
        (b >>> (j * 2)) &&& 3 := by
  decide

theorem getStatus_lt_4 (t : Tree) (i : Nat) : getStatus t i < 4 := by
  unfold getStatus
  rw [and_three_eq_mod]
  exact Nat.mod_lt _ (by norm_num)

theorem and_three_lt (i : Nat) : i &&& 3 < 4 := by
  rw [and_three_eq_mod]; exact Nat.mod_lt _ (by norm_num)

/-- Writing a status and reading it back at the same node. -/
theorem getStatus_setStatus_self (t : Tree) (i st : Nat) (h : st < 4) :
    getStatus (setStatus t i st) i = st := by
  unfold getStatus setStatus
  simp only [if_pos rfl]
  rw [and_mask_mod256 _ _ (mask_lt_256 _ (and_three_lt i))]
  exact codec_same_core _ (Nat.mod_lt _ (by norm_num)) st h _ (and_three_lt i)

/-- Writing a status at node `i` leaves every other node's status
unchanged (the two bit positions inside a shared byte are disjoint). -/
theorem getStatus_setStatus_ne (t : Tree) (i st n : Nat) (hst : st < 4)
    (hne : n ≠ i) : getStatus (setStatus t i st) n = getStatus t n := by
  unfold getStatus setStatus
  by_cases hb : n >>> 2 = i >>> 2
  · simp only [hb, eq_self_iff_true, if_true]
    have hslot : n &&& 3 ≠ i &&& 3 := by
      rw [and_three_eq_mod, and_three_eq_mod]
      rw [shiftRight_two_eq_div, shiftRight_two_eq_div] at hb
      intro hEq
      exact hne (by omega)
    rw [and_mask_mod256 (t (i >>> 2)) _ (mask_lt_256 _ (and_three_lt i)),
      codec_other_core _ (Nat.mod_lt _ (by norm_num)) st hst _ (and_three_lt i) _
        (and_three_lt n) hslot, ← shift_and_three_mod256 _ _ (and_three_lt n)]
  · simp only [if_neg hb]

theorem status_cases (t : Tree) (i : Nat) :
    getStatus t i = 0 ∨ getStatus t i = 1 ∨ getStatus t i = 2 ∨ getStatus t i = 3 := by
  have := getStatus_lt_4 t i
  omega

/-! ## Spec-side views of the tree

`freeCap`, `liveList` and `Inv` look only at the *reachable* part of
the tree: the root is reachable, and the children of a reachable node
are reachable exactly when its status is SPLIT or FULL.  Statuses of
unreachable nodes are stale leftovers (the C code never clears them)
and carry no meaning. -/

/-- Free capacity (in minimum-block units) of the subtree rooted at
`index`, whose block length is `2^d` units. -/
def freeCap (t : Tree) : Nat → Nat → Nat
  | 0, index =>
    if getStatus t index = NODE_UNUSED then 1 else 0
  | d + 1, index =>
    if getStatus t index = NODE_UNUSED then 2 ^ (d + 1)
    else if getStatus t index = NODE_USED then 0
    else freeCap t d (2 * index + 1) + freeCap t d (2 * index + 2)

/-- The live (USED, reachable) blocks of the subtree rooted at `index`,
as `(unit offset, unit width)` pairs in left-to-right order; `left` is
the unit offset of the subtree's block, `2^d` its length. -/
def liveList (t : Tree) : Nat → Nat → Nat → List (Nat × Nat)
  | 0, index, left =>
    if getStatus t index = NODE_USED then [(left, 1)] else []
  | d + 1, index, left =>
    if getStatus t index = NODE_USED then [(left, 2 ^ (d + 1))]
    else if getStatus t index = NODE_UNUSED then []
    else
      liveList t d (2 * index + 1) left ++
        liveList t d (2 * index + 2) (left + 2 ^ d)

/-- Structural well-formedness of the reachable tree: a SPLIT node has
free capacity strictly between `0` and its block length, a FULL node
has none, and neither appears at maximum depth (`d = 0`). -/
def Inv (t : Tree) : Nat → Nat → Prop
  | 0, index =>
    getStatus t index ≠ NODE_SPLIT ∧ getStatus t index ≠ NODE_FULL
  | d + 1, index =>
    (getStatus t index = NODE_SPLIT →
      Inv t d (2 * index + 1) ∧ Inv t d (2 * index + 2) ∧
        0 < freeCap t (d + 1) index ∧ freeCap t (d + 1) index < 2 ^ (d + 1)) ∧
    (getStatus t index = NODE_FULL →
      Inv t d (2 * index + 1) ∧ Inv t d (2 * index + 2) ∧
        freeCap t (d + 1) index = 0)

/-- Equality of the statuses of all reachable nodes of two trees. -/
def statusTreeEqB (t u : Tree) : Nat → Nat → Bool
  | 0, index => getStatus t index == getStatus u index
  | d + 1, index =>
    (getStatus t index == getStatus u index) &&
      (if getStatus t index = NODE_SPLIT ∨ getStatus t index = NODE_FULL then
        statusTreeEqB t u d (2 * index + 1) && statusTreeEqB t u d (2 * index + 2)
      else true)

/-- The tree-consistency invariant exactly as the spec states it: FULL
only if no free capacity remains beneath, SPLIT only if some free
capacity remains, and a node at maximum depth is never SPLIT or FULL. -/
def claimInvB (t : Tree) : Nat → Nat → Bool
  | 0, index =>
    !(getStatus t index == NODE_SPLIT) && !(getStatus t index == NODE_FULL)
  | d + 1, index =>
    if getStatus t index = NODE_SPLIT ∨ getStatus t index = NODE_FULL then
      (if getStatus t index = NODE_FULL then freeCap t (d + 1) index == 0
        else decide (0 < freeCap t (d + 1) index)) &&
        claimInvB t d (2 * index + 1) && claimInvB t d (2 * index + 2)
    else true

/-- Membership in the depth-`d` subtree rooted at `index`. -/
def inSub : Nat → Nat → Nat → Prop
  | 0, index, n => n = index
  | d + 1, index, n =>
    n = index ∨ inSub d (2 * index + 1) n ∨ inSub d (2 * index + 2) n

theorem inSub_self (d index : Nat) : inSub d index index := by
  cases d with
  | zero => exact rfl
  | succ d => exact Or.inl rfl

theorem inSub_left (d index n : Nat) (h : inSub d (2 * index + 1) n) :
    inSub (d + 1) index n :=
  Or.inr (Or.inl h)

theorem inSub_right (d index n : Nat) (h : inSub d (2 * index + 2) n) :
    inSub (d + 1) index n :=
  Or.inr (Or.inr h)

/-- Arithmetic characterization of subtree membership: `n` is in the
subtree of `index` iff chopping `k ≤ d` levels off `n` lands on
`index` (in the `(i+1)`-heap numbering, ancestors are right shifts). -/
theorem inSub_iff (d index n : Nat) :
    inSub d index n ↔ ∃ k ≤ d, (n + 1) / 2 ^ k = index + 1 := by
  induction d generalizing index with
  | zero =>
    constructor
    · intro h
      exact ⟨0, le_refl 0, by simp [show n = index from h]⟩
    · rintro ⟨k, hk, hdiv⟩
      interval_cases k
      simp at hdiv
      show n = index
      omega
  | succ d ih =>
    constructor
    · rintro (rfl | h | h)
      · exact ⟨0, Nat.zero_le _, by simp⟩
      · obtain ⟨k, hk, hdiv⟩ := (ih _).1 h
        refine ⟨k + 1, by omega, ?_⟩
        rw [pow_succ, ← Nat.div_div_eq_div_mul, hdiv]
        omega
      · obtain ⟨k, hk, hdiv⟩ := (ih _).1 h
        refine ⟨k + 1, by omega, ?_⟩
        rw [pow_succ, ← Nat.div_div_eq_div_mul, hdiv]
        omega
    · rintro ⟨k, hk, hdiv⟩
      match k with
      | 0 =>
        left
        simp at hdiv
        omega
      | k + 1 =>
        right
        rw [pow_succ, ← Nat.div_div_eq_div_mul] at hdiv
        have h2 : (n + 1) / 2 ^ k = 2 * index + 2 ∨ (n + 1) / 2 ^ k = 2 * index + 3 := by
          omega
        rcases h2 with h2 | h2
        · exact Or.inl ((ih _).2 ⟨k, by omega, by omega⟩)
        · exact Or.inr ((ih _).2 ⟨k, by omega, by omega⟩)

theorem inSub_ge (d index n : Nat) (h : inSub d index n) : index ≤ n := by
  obtain ⟨k, _, hdiv⟩ := (inSub_iff d index n).1 h
  have h1 : (n + 1) / 2 ^ k ≤ n + 1 := Nat.div_le_self _ _
  omega

/-- Sibling subtrees are disjoint. -/
theorem inSub_sibling_disjoint (i d n : Nat)
    (hl : inSub d (2 * i + 1) n) (hr : inSub d (2 * i + 2) n) : False := by
  obtain ⟨k, _, hk⟩ := (inSub_iff d _ n).1 hl
  obtain ⟨j, _, hj⟩ := (inSub_iff d _ n).1 hr
  rcases Nat.le_total k j with h | h
  · have hsplit : (n + 1) / 2 ^ j = (n + 1) / 2 ^ k / 2 ^ (j - k) := by
      rw [Nat.div_div_eq_div_mul, ← pow_add]
      congr 2
      omega
    rw [hk] at hsplit
    have e1 : (2 * i + 2) / 2 ^ (j - k) = 2 * i + 3 := by rw [← hsplit, hj]
    have hle : (2 * i + 2) / 2 ^ (j - k) ≤ 2 * i + 2 := Nat.div_le_self _ _
    omega
  · have hsplit : (n + 1) / 2 ^ k = (n + 1) / 2 ^ j / 2 ^ (k - j) := by
      rw [Nat.div_div_eq_div_mul, ← pow_add]
      congr 2
      omega
    rw [hj] at hsplit
    have e2 : (2 * i + 3) / 2 ^ (k - j) = 2 * i + 2 := by rw [← hsplit, hk]
    match hkj : k - j with
    | 0 =>
      rw [hkj] at e2
      simp at e2
    | m + 1 =>
      rw [hkj] at e2
      have h1 : (2 * i + 3) / 2 ^ (m + 1) ≤ (2 * i + 3) / 2 := by
        refine Nat.div_le_div_left ?_ (by norm_num)
        have h2 : (2 : Nat) ^ 1 ≤ 2 ^ (m + 1) := Nat.pow_le_pow_right (by norm_num) (by omega)
        simpa using h2
      rw [e2] at h1
      omega

/-- The buddy of a child of `i` lies outside that child's subtree. -/
theorem buddy_not_inSub_left (i d : Nat) : ¬ inSub d (2 * i + 1) (2 * i + 2) := by
  intro h
  exact inSub_sibling_disjoint i d _ h (inSub_self _ _)

theorem buddy_not_inSub_right (i d : Nat) : ¬ inSub d (2 * i + 2) (2 * i + 1) := by
  intro h
  exact inSub_sibling_disjoint i d _ (inSub_self _ _) h

/-- Nodes strictly above a subtree (smaller index than its root) are
outside it. -/
theorem not_inSub_of_lt (d index n : Nat) (h : n < index) : ¬ inSub d index n := by
  intro hmem
  exact absurd (inSub_ge d index n hmem) (by omega)

/-! ## Congruence of the spec views under status-preserving updates -/

theorem freeCap_congr (t t' : Tree) (d : Nat) {index : Nat}
    (h : ∀ n, inSub d index n → getStatus t' n = getStatus t n) :
    freeCap t' d index = freeCap t d index := by
  induction d generalizing index with
  | zero => simp only [freeCap, h index (inSub_self _ _)]
  | succ d ih =>
    simp only [freeCap, h index (inSub_self _ _),
      ih (fun n hn => h n (inSub_left _ _ _ hn)),
      ih (fun n hn => h n (inSub_right _ _ _ hn))]

theorem liveList_congr (t t' : Tree) (d : Nat) {index left : Nat}
    (h : ∀ n, inSub d index n → getStatus t' n = getStatus t n) :
    liveList t' d index left = liveList t d index left := by
  induction d generalizing index left with
  | zero => simp only [liveList, h index (inSub_self _ _)]
  | succ d ih =>
    simp only [liveList, h index (inSub_self _ _),
      ih (fun n hn => h n (inSub_left _ _ _ hn)),
      ih (fun n hn => h n (inSub_right _ _ _ hn))]

theorem Inv_congr (t t' : Tree) (d : Nat) {index : Nat}
    (h : ∀ n, inSub d index n → getStatus t' n = getStatus t n) :
    Inv t' d index ↔ Inv t d index := by
  induction d generalizing index with
  | zero => simp only [Inv, h index (inSub_self _ _)]
  | succ d ih =>
    simp only [Inv, h index (inSub_self _ _),
      freeCap_congr t t' (d + 1) h,
      ih (fun n hn => h n (inSub_left _ _ _ hn)),
      ih (fun n hn => h n (inSub_right _ _ _ hn))]

/-! ## Bounds and ordering of the spec views -/

theorem freeCap_le (t : Tree) (d index : Nat) : freeCap t d index ≤ 2 ^ d := by
  induction d generalizing index with
  | zero =>
    simp only [freeCap]
    split <;> simp
  | succ d ih =>
    simp only [freeCap]
    split
    · exact le_refl _
    · split
      · positivity
      · have h1 := ih (2 * index + 1)
        have h2 := ih (2 * index + 2)
        rw [pow_succ]
        omega

theorem liveList_mem_bounds (t : Tree) (d : Nat) {index left : Nat} :
    ∀ p ∈ liveList t d index left,
      left ≤ p.1 ∧ p.1 + p.2 ≤ left + 2 ^ d ∧ 0 < p.2 ∧ p.2 ≤ 2 ^ d := by
  induction d generalizing index left with
  | zero =>
    intro p hp
    simp only [liveList] at hp
    split at hp
    · simp only [List.mem_singleton] at hp
      subst hp
      simp
    · simp at hp
  | succ d ih =>
    intro p hp
    simp only [liveList] at hp
    split at hp
    · simp only [List.mem_singleton] at hp
      subst hp
      simp
    · split at hp
      · simp at hp
      · rw [List.mem_append] at hp
        have hd : (2 : Nat) ^ d + 2 ^ d = 2 ^ (d + 1) := by rw [pow_succ]; omega
        rcases hp with hp | hp
        · have := ih p hp
          omega
        · have := ih p hp
          omega

/-- The live blocks are listed left-to-right: each ends before the next
begins.  In particular their unit ranges are pairwise disjoint. -/
theorem liveList_sorted (t : Tree) (d : Nat) {index left : Nat} :
    List.Pairwise (fun a b : Nat × Nat => a.1 + a.2 ≤ b.1)
      (liveList t d index left) := by
  induction d generalizing index left with
  | zero =>
    simp only [liveList]
    split <;> simp
  | succ d ih =>
    simp only [liveList]
    split
    · simp
    · split
      · simp
      · rw [List.pairwise_append]
        refine ⟨ih, ih, ?_⟩
        intro a ha b hb
        have h1 := liveList_mem_bounds t d a ha
        have h2 := liveList_mem_bounds t d b hb
        omega

/-- Under `Inv`, free capacity plus the total width of live blocks is
the whole block length. -/
theorem capSum (t : Tree) (d : Nat) {index left : Nat} (hInv : Inv t d index) :
    freeCap t d index + ((liveList t d index left).map Prod.snd).sum = 2 ^ d := by
  induction d generalizing index left with
  | zero =>
    simp only [freeCap, liveList]
    rcases status_cases t index with h | h | h | h <;>
      simp [h, NODE_UNUSED, NODE_USED] at hInv ⊢
    · exact absurd h (by simpa [NODE_SPLIT] using hInv.1)
    · exact absurd h (by simpa [NODE_FULL] using hInv.2)
  | succ d ih =>
    simp only [freeCap, liveList]
    rcases status_cases t index with h | h | h | h
    · simp [h, NODE_UNUSED, NODE_USED]
    · simp [h, NODE_UNUSED, NODE_USED]
    · have hh : getStatus t index = NODE_SPLIT := h
      obtain ⟨h1, h2, _, _⟩ := (hInv.1 hh)
      simp only [h, NODE_UNUSED, NODE_USED, NODE_SPLIT]
      norm_num
      have e1 := @ih (2 * index + 1) left h1
      have e2 := @ih (2 * index + 2) (left + 2 ^ d) h2
      rw [pow_succ]
      omega
    · have hh : getStatus t index = NODE_FULL := h
      obtain ⟨h1, h2, _⟩ := (hInv.2 hh)
      simp only [h, NODE_UNUSED, NODE_USED, NODE_FULL]
      norm_num
      have e1 := @ih (2 * index + 1) left h1
      have e2 := @ih (2 * index + 2) (left + 2 ^ d) h2
      rw [pow_succ]
      omega

/-- Splitting an equality of concatenations along an offset boundary. -/
theorem concat_split (mid : Nat) :
    ∀ xs ys xs' ys' : List (Nat × Nat),
      (∀ p ∈ xs, p.1 < mid) → (∀ p ∈ ys, mid ≤ p.1) →
      (∀ p ∈ xs', p.1 < mid) → (∀ p ∈ ys', mid ≤ p.1) →
      xs ++ ys = xs' ++ ys' → xs = xs' ∧ ys = ys' := by
  intro xs
  induction xs with
  | nil =>
    intro ys xs' ys' _ hy hx' _ h
    cases xs' with
    | nil => simpa using h
    | cons a l =>
      exfalso
      simp only [List.nil_append] at h
      have ha : a ∈ ys := by rw [h]; simp
      have h1 := hy a ha
      have h2 := hx' a (by simp)
      omega
  | cons a l ih =>
    intro ys xs' ys' hx hy hx' hy' h
    cases xs' with
    | nil =>
      exfalso
      simp only [List.nil_append] at h
      have ha : a ∈ ys' := by rw [← h]; simp
      have h1 := hy' a ha
      have h2 := hx a (by simp)
      omega
    | cons b m =>
      simp only [List.cons_append, List.cons.injEq] at h ⊢
      obtain ⟨rfl, h2⟩ := h
      have := ih ys m ys' (fun p hp => hx p (by simp [hp])) hy
        (fun p hp => hx' p (by simp [hp])) hy' h2
      exact ⟨⟨rfl, this.1⟩, this.2⟩

theorem ne_nil_of_sum_pos (l : List (Nat × Nat))
    (h : 0 < (l.map Prod.snd).sum) : l ≠ [] := by
  intro hn
  rw [hn] at h
  simp at h

/-- A node is USED or FULL exactly when its subtree has no free
capacity (under the invariant). -/
theorem cap_zero_iff (t : Tree) (d index : Nat) (hInv : Inv t d index) :
    (freeCap t d index = 0 ↔
      (getStatus t index = NODE_USED ∨ getStatus t index = NODE_FULL)) := by
  cases d with
  | zero =>
    simp only [freeCap]
    rcases status_cases t index with h | h | h | h
    · simp [h, NODE_USED, NODE_FULL, NODE_UNUSED]
    · simp [h, NODE_USED, NODE_FULL, NODE_UNUSED]
    · exact absurd h (by simpa [NODE_SPLIT] using hInv.1)
    · exact absurd h (by simpa [NODE_FULL] using hInv.2)
  | succ d =>
    rcases status_cases t index with h | h | h | h
    · simp only [freeCap, h]
      simp [NODE_UNUSED, NODE_USED, NODE_FULL]
    · simp only [freeCap, h]
      simp [NODE_UNUSED, NODE_USED, NODE_FULL]
    · have hs : getStatus t index = NODE_SPLIT := h
      obtain ⟨_, _, hpos, _⟩ := hInv.1 hs
      constructor
      · intro h0
        omega
      · intro hc
        rw [h] at hc
        simp [NODE_USED, NODE_FULL] at hc
    · have hs : getStatus t index = NODE_FULL := h
      obtain ⟨_, _, h0⟩ := hInv.2 hs
      exact ⟨fun _ => Or.inr hs, fun _ => h0⟩

theorem Inv_of_unused (t : Tree) (d index : Nat)
    (h : getStatus t index = NODE_UNUSED) : Inv t d index := by
  cases d with
  | zero => exact ⟨by simp [h, NODE_UNUSED, NODE_SPLIT], by simp [h, NODE_UNUSED, NODE_FULL]⟩
  | succ d =>
    constructor
    · intro hs
      rw [h] at hs
      simp [NODE_UNUSED, NODE_SPLIT] at hs
    · intro hs
      rw [h] at hs
      simp [NODE_UNUSED, NODE_FULL] at hs

theorem Inv_of_used (t : Tree) (d index : Nat)
    (h : getStatus t index = NODE_USED) : Inv t d index := by
  cases d with
  | zero => exact ⟨by simp [h, NODE_USED, NODE_SPLIT], by simp [h, NODE_USED, NODE_FULL]⟩
  | succ d =>
    constructor
    · intro hs
      rw [h] at hs
      simp [NODE_USED, NODE_SPLIT] at hs
    · intro hs
      rw [h] at hs
      simp [NODE_USED, NODE_FULL] at hs

/-! ## Index arithmetic helpers -/

theorem and_one_eq_mod (x : Nat) : x &&& 1 = x % 2 := Nat.and_one_is_mod x

theorem buddyIdx_left (i : Nat) : buddyIdx (2 * i + 1) = 2 * i + 2 := by
  unfold buddyIdx
  rw [and_one_eq_mod]
  omega

theorem buddyIdx_right (i : Nat) : buddyIdx (2 * i + 2) = 2 * i + 1 := by
  unfold buddyIdx
  rw [and_one_eq_mod]
  omega

theorem parentIdx_left (i : Nat) : parentIdx (2 * i + 1) = i := by
  unfold parentIdx
  omega

theorem parentIdx_right (i : Nat) : parentIdx (2 * i + 2) = i := by
  unfold parentIdx
  omega

/-! ## `buddy_alloc`: failure leaves the tree unchanged -/

/-- Descending into an UNUSED node with a fitting power-of-two size
always succeeds (the node is split and its fresh UNUSED left child is
taken, all the way down). -/
theorem allocAt_unused_isSome (min_level lvl σ : Nat) :
    ∀ d t index level, σ ≤ d → getStatus t index = NODE_UNUSED →
      (allocAt min_level lvl t (2 ^ σ) index level d).1.isSome = true := by
  intro d
  induction d with
  | zero =>
    intro t index level hσ hU
    have : σ = 0 := by omega
    subst this
    simp [allocAt, hU]
  | succ d ih =>
    intro t index level hσ hU
    by_cases hsz : (2 : Nat) ^ σ = 2 ^ (d + 1)
    · simp [allocAt, hsz, hU]
    · have hσd : σ ≤ d := by
        have h1 : σ ≠ d + 1 := fun h => hsz (by rw [h])
        omega
      simp only [allocAt, if_neg hsz]
      rw [if_neg (by rw [hU]; simp [NODE_UNUSED, NODE_USED, NODE_FULL]), if_pos hU]
      have hL : getStatus
          (setStatus (setStatus (setStatus t index NODE_SPLIT)
            (2 * index + 1) NODE_UNUSED) (2 * index + 2) NODE_UNUSED)
          (2 * index + 1) = NODE_UNUSED := by
        rw [getStatus_setStatus_ne _ _ _ _ (by norm_num [NODE_UNUSED]) (by omega),
          getStatus_setStatus_self _ _ _ (by norm_num [NODE_UNUSED])]
      have := ih _ (2 * index + 1) (level + 1) hσd hL
      rcases hres : allocAt min_level lvl
          (setStatus (setStatus (setStatus t index NODE_SPLIT)
            (2 * index + 1) NODE_UNUSED) (2 * index + 2) NODE_UNUSED)
          (2 ^ σ) (2 * index + 1) (level + 1) d with ⟨o, t2⟩
      rw [hres] at this
      cases o with
      | none => simp at this
      | some off => simp

/-- A failed `buddy_alloc` search writes nothing: if the result is
`none` the tree is returned exactly as it was. -/
theorem allocAt_none_eq (min_level lvl σ : Nat) :
    ∀ d t index level, σ ≤ d →
      (allocAt min_level lvl t (2 ^ σ) index level d).1 = none →
      (allocAt min_level lvl t (2 ^ σ) index level d).2 = t := by
  intro d
  induction d with
  | zero =>
    intro t index level hσ hnone
    have hσ0 : σ = 0 := by omega
    subst hσ0
    simp only [allocAt, pow_zero, if_true] at hnone ⊢
    by_cases hU : getStatus t index = NODE_UNUSED
    · rw [if_pos hU] at hnone
      simp at hnone
    · rw [if_neg hU]
  | succ d ih =>
    intro t index level hσ hnone
    by_cases hsz : (2 : Nat) ^ σ = 2 ^ (d + 1)
    · simp only [allocAt] at hnone ⊢
      rw [if_pos hsz] at hnone ⊢
      by_cases hU : getStatus t index = NODE_UNUSED
      · rw [if_pos hU] at hnone
        simp at hnone
      · rw [if_neg hU]
    · have hσd : σ ≤ d := by
        have h1 : σ ≠ d + 1 := fun h => hsz (by rw [h])
        omega
      simp only [allocAt, if_neg hsz] at hnone ⊢
      by_cases hUF : getStatus t index = NODE_USED ∨ getStatus t index = NODE_FULL
      · rw [if_pos hUF] at hnone ⊢
      · rw [if_neg hUF] at hnone ⊢
        by_cases hU : getStatus t index = NODE_UNUSED
        · exfalso
          rw [if_pos hU] at hnone
          have hL : getStatus
              (setStatus (setStatus (setStatus t index NODE_SPLIT)
                (2 * index + 1) NODE_UNUSED) (2 * index + 2) NODE_UNUSED)
              (2 * index + 1) = NODE_UNUSED := by
            rw [getStatus_setStatus_ne _ _ _ _ (by norm_num [NODE_UNUSED]) (by omega),
              getStatus_setStatus_self _ _ _ (by norm_num [NODE_UNUSED])]
          have hsome := allocAt_unused_isSome min_level lvl σ d _ (2 * index + 1)
            (level + 1) hσd hL
          rcases hres : allocAt min_level lvl
              (setStatus (setStatus (setStatus t index NODE_SPLIT)
                (2 * index + 1) NODE_UNUSED) (2 * index + 2) NODE_UNUSED)
              (2 ^ σ) (2 * index + 1) (level + 1) d with ⟨o, t2⟩
          rw [hres] at hsome hnone
          cases o with
          | none => simp at hsome
          | some off => simp at hnone
        · rw [if_neg hU] at hnone ⊢
          rcases hres : allocAt min_level lvl t (2 ^ σ) (2 * index + 1)
              (level + 1) d with ⟨o, t2⟩
          rw [hres] at hnone
          cases o with
          | some off => simp at hnone
          | none =>
            simp only at hnone ⊢
            have h2 : t2 = t := by
              have h3 := ih t (2 * index + 1) (level + 1) hσd
              rw [hres] at h3
              exact h3 rfl
            rw [h2] at hnone ⊢
            exact ih t (2 * index + 2) (level + 1) hσd hnone

/-! ## Evaluation of the spec views at fixed statuses -/

theorem freeCap_of_unused (t : Tree) (d index : Nat)
    (h : getStatus t index = NODE_UNUSED) : freeCap t d index = 2 ^ d := by
  cases d <;> simp [freeCap, h, NODE_UNUSED]

theorem freeCap_of_used (t : Tree) (d index : Nat)
    (h : getStatus t index = NODE_USED) : freeCap t d index = 0 := by
  cases d <;> simp [freeCap, h, NODE_USED, NODE_UNUSED]

theorem liveList_of_unused (t : Tree) (d index left : Nat)
    (h : getStatus t index = NODE_UNUSED) : liveList t d index left = [] := by
  cases d <;> simp [liveList, h, NODE_UNUSED, NODE_USED]

theorem liveList_of_used (t : Tree) (d index left : Nat)
    (h : getStatus t index = NODE_USED) : liveList t d index left = [(left, 2 ^ d)] := by
  cases d <;> simp [liveList, h, NODE_USED]

theorem freeCap_of_inner (t : Tree) (d index : Nat)
    (h : getStatus t index = NODE_SPLIT ∨ getStatus t index = NODE_FULL) :
    freeCap t (d + 1) index = freeCap t d (2 * index + 1) + freeCap t d (2 * index + 2) := by
  rcases h with h | h <;> simp [freeCap, h, NODE_SPLIT, NODE_FULL, NODE_UNUSED, NODE_USED]

theorem liveList_of_inner (t : Tree) (d index left : Nat)
    (h : getStatus t index = NODE_SPLIT ∨ getStatus t index = NODE_FULL) :
    liveList t (d + 1) index left =
      liveList t d (2 * index + 1) left ++ liveList t d (2 * index + 2) (left + 2 ^ d) := by
  rcases h with h | h <;> simp [liveList, h, NODE_SPLIT, NODE_FULL, NODE_UNUSED, NODE_USED]

/-! ## `buddy_alloc`: specification of a successful allocation -/

theorem split_status_self (t : Tree) (index : Nat) :
    getStatus (setStatus (setStatus (setStatus t index NODE_SPLIT)
      (2 * index + 1) NODE_UNUSED) (2 * index + 2) NODE_UNUSED) index = NODE_SPLIT := by
  rw [getStatus_setStatus_ne _ _ _ _ (by norm_num [NODE_UNUSED]) (by omega),
    getStatus_setStatus_ne _ _ _ _ (by norm_num [NODE_UNUSED]) (by omega),
    getStatus_setStatus_self _ _ _ (by norm_num [NODE_SPLIT])]

theorem split_status_left (t : Tree) (index : Nat) :
    getStatus (setStatus (setStatus (setStatus t index NODE_SPLIT)
      (2 * index + 1) NODE_UNUSED) (2 * index + 2) NODE_UNUSED)
      (2 * index + 1) = NODE_UNUSED := by
  rw [getStatus_setStatus_ne _ _ _ _ (by norm_num [NODE_UNUSED]) (by omega),
    getStatus_setStatus_self _ _ _ (by norm_num [NODE_UNUSED])]

theorem split_status_right (t : Tree) (index : Nat) :
    getStatus (setStatus (setStatus (setStatus t index NODE_SPLIT)
      (2 * index + 1) NODE_UNUSED) (2 * index + 2) NODE_UNUSED)
      (2 * index + 2) = NODE_UNUSED :=
  getStatus_setStatus_self _ _ _ (by norm_num [NODE_UNUSED])

theorem split_status_other (t : Tree) (index n : Nat) (h0 : n ≠ index)
    (h1 : n ≠ 2 * index + 1) (h2 : n ≠ 2 * index + 2) :
    getStatus (setStatus (setStatus (setStatus t index NODE_SPLIT)
      (2 * index + 1) NODE_UNUSED) (2 * index + 2) NODE_UNUSED) n = getStatus t n := by
  rw [getStatus_setStatus_ne _ _ _ _ (by norm_num [NODE_UNUSED]) h2,
    getStatus_setStatus_ne _ _ _ _ (by norm_num [NODE_UNUSED]) h1,
    getStatus_setStatus_ne _ _ _ _ (by norm_num [NODE_SPLIT]) h0]

/-- Postcondition of a successful `allocAt` call on the subtree rooted
at `index` (depth `d`, block unit offset `left`).  `tR` is the state
just before `_mark_parent` escapes above `index`: its changes are
confined to the subtree, the invariant holds again, the live list has
gained exactly one block of `2^σ` units at the returned unit offset
`offU`, the free capacity shrank by `2^σ`, and the returned tree is
`tR` with the pending `_mark_parent` walk continued above `index`
exactly when `index` itself became USED or FULL. -/
def AllocPost (min_level σ d : Nat) (t : Tree) (index level left offB : Nat)
    (T : Tree) : Prop :=
  ∃ tR offU,
    (∀ n, ¬ inSub d index n → getStatus tR n = getStatus t n) ∧
    Inv tR d index ∧
    offB = offU * 2 ^ min_level ∧
    left ≤ offU ∧
    offU + 2 ^ σ ≤ left + 2 ^ d ∧
    (∃ pre suf, liveList t d index left = pre ++ suf ∧
      liveList tR d index left = pre ++ (offU, 2 ^ σ) :: suf ∧
      (pre = [] → offU = left)) ∧
    freeCap tR d index + 2 ^ σ = freeCap t d index ∧
    T = (if getStatus tR index = NODE_USED ∨ getStatus tR index = NODE_FULL
          then markParent tR index level else tR)

/-- The found-node case: `size == length` at an UNUSED node. -/
theorem allocAt_spec_eq (min_level lvl : Nat) (t : Tree)
    (d index level left : Nat)
    (hU : getStatus t index = NODE_UNUSED) (hlvl : level + d = lvl)
    (hleft : left = (index + 1 - 2 ^ level) * 2 ^ d) :
    AllocPost min_level d d t index level left
      (indexOffset min_level lvl index level)
      (markParent (setStatus t index NODE_USED) index level) := by
  have hUsed : getStatus (setStatus t index NODE_USED) index = NODE_USED :=
    getStatus_setStatus_self _ _ _ (by norm_num [NODE_USED])
  refine ⟨setStatus t index NODE_USED, left, ?_, ?_, ?_, le_refl _, by omega,
    ⟨[], [], ?_, ?_, fun _ => rfl⟩, ?_, ?_⟩
  · intro n hn
    refine getStatus_setStatus_ne _ _ _ _ (by norm_num [NODE_USED]) (fun h => hn ?_)
    rw [h]
    exact inSub_self d index
  · exact Inv_of_used _ _ _ hUsed
  · unfold indexOffset
    rw [Nat.shiftLeft_eq, Nat.shiftLeft_eq, hleft]
    have hd : lvl - level = d := by omega
    rw [hd]
  · simp [liveList_of_unused t d index left hU]
  · simp [liveList_of_used _ d index left hUsed]
  · simp [freeCap_of_used _ d index hUsed, freeCap_of_unused t d index hU]
  · rw [if_pos (Or.inl hUsed)]

/-- A subtree with a live block cannot have an empty live list; in
particular a failed allocation implies the live list is nonempty. -/
theorem liveList_ne_nil_of_alloc_none (min_level lvl σ d : Nat) (u : Tree)
    (c level left : Nat) (hσ : σ ≤ d) (hInv : Inv u d c)
    (hnone : (allocAt min_level lvl u (2 ^ σ) c level d).1 = none) :
    liveList u d c left ≠ [] := by
  intro hnil
  rcases status_cases u c with h | h | h | h
  · have := allocAt_unused_isSome min_level lvl σ d u c level hσ h
    rw [Option.isSome_iff_exists] at this
    obtain ⟨x, hx⟩ := this
    rw [hx] at hnone
    simp at hnone
  · rw [liveList_of_used u d c left h] at hnil
    simp at hnil
  · have hs : getStatus u c = NODE_SPLIT := h
    have hc := @capSum u d c left hInv
    rw [hnil] at hc
    simp at hc
    cases d with
    | zero => exact absurd hs (by simpa [NODE_SPLIT] using hInv.1)
    | succ d =>
      obtain ⟨_, _, _, hlt⟩ := hInv.1 hs
      omega
  · have hs : getStatus u c = NODE_FULL := h
    have hc := @capSum u d c left hInv
    rw [hnil] at hc
    simp at hc
    cases d with
    | zero => exact absurd hs (by simpa [NODE_FULL] using hInv.2)
    | succ d =>
      obtain ⟨_, _, h0⟩ := hInv.2 hs
      have : (0 : Nat) < 2 ^ (d + 1) := by positivity
      omega

/-- Lifting a successful left-child allocation to its SPLIT parent:
either both children are now exhausted and `_mark_parent` marks the
parent FULL and walks on, or the walk stops and the parent stays
SPLIT. -/
theorem allocPost_step_left (min_level σ d : Nat) (u TL : Tree)
    (index level left offB : Nat) (hσ : σ ≤ d)
    (hsplit : getStatus u index = NODE_SPLIT)
    (hInvR : Inv u d (2 * index + 2))
    (hpost : AllocPost min_level σ d u (2 * index + 1) (level + 1) left offB TL) :
    AllocPost min_level σ (d + 1) u index level left offB TL := by
  obtain ⟨tR, offU, hframe, hinv, hoffB, hlo, hhi,
    ⟨pre, suf, hl1, hl2, hl3⟩, hcap, hform⟩ := hpost
  have hneL : ∀ n, inSub d (2 * index + 1) n → n ≠ index := by
    intro n hn h
    have := inSub_ge d (2 * index + 1) n hn
    omega
  have hsibR : ∀ n, inSub d (2 * index + 2) n → getStatus tR n = getStatus u n :=
    fun n hn => hframe n (fun hc => inSub_sibling_disjoint index d n hc hn)
  have hR2 : getStatus tR (2 * index + 2) = getStatus u (2 * index + 2) :=
    hsibR _ (inSub_self d _)
  have hRidx : getStatus tR index = getStatus u index :=
    hframe _ (not_inSub_of_lt _ _ _ (by omega))
  have hInvR_tR : Inv tR d (2 * index + 2) := (Inv_congr u tR d hsibR).2 hInvR
  have hcapR : freeCap tR d (2 * index + 2) = freeCap u d (2 * index + 2) :=
    freeCap_congr u tR d hsibR
  have hLLR : liveList tR d (2 * index + 2) (left + 2 ^ d) =
      liveList u d (2 * index + 2) (left + 2 ^ d) := liveList_congr u tR d hsibR
  have hcapLle : freeCap u d (2 * index + 1) ≤ 2 ^ d := freeCap_le u d _
  have hcapRle : freeCap u d (2 * index + 2) ≤ 2 ^ d := freeCap_le u d _
  have hσle : (2 : Nat) ^ σ ≤ 2 ^ d := Nat.pow_le_pow_right (by norm_num) hσ
  have hσpos : (0 : Nat) < 2 ^ σ := by positivity
  have hpow : (2 : Nat) ^ (d + 1) = 2 ^ d + 2 ^ d := by rw [pow_succ]; omega
  have hLu : liveList u (d + 1) index left =
      liveList u d (2 * index + 1) left ++ liveList u d (2 * index + 2) (left + 2 ^ d) :=
    liveList_of_inner u d index left (Or.inl hsplit)
  have hCu : freeCap u (d + 1) index =
      freeCap u d (2 * index + 1) + freeCap u d (2 * index + 2) :=
    freeCap_of_inner u d index (Or.inl hsplit)
  by_cases hAB : (getStatus tR (2 * index + 1) = NODE_USED ∨
      getStatus tR (2 * index + 1) = NODE_FULL) ∧
      (getStatus u (2 * index + 2) = NODE_USED ∨
        getStatus u (2 * index + 2) = NODE_FULL)
  · -- both children exhausted: the parent is marked FULL and the walk continues
    obtain ⟨hA, hB⟩ := hAB
    have hcapL0 : freeCap tR d (2 * index + 1) = 0 := (cap_zero_iff tR d _ hinv).2 hA
    have hcapR0 : freeCap u d (2 * index + 2) = 0 := (cap_zero_iff u d _ hInvR).2 hB
    have hFull : getStatus (setStatus tR index NODE_FULL) index = NODE_FULL :=
      getStatus_setStatus_self _ _ _ (by norm_num [NODE_FULL])
    have hcongrL : ∀ n, inSub d (2 * index + 1) n →
        getStatus (setStatus tR index NODE_FULL) n = getStatus tR n :=
      fun n hn => getStatus_setStatus_ne _ _ _ _ (by norm_num [NODE_FULL]) (hneL n hn)
    have hcongrR : ∀ n, inSub d (2 * index + 2) n →
        getStatus (setStatus tR index NODE_FULL) n = getStatus u n := by
      intro n hn
      rw [getStatus_setStatus_ne _ _ _ _ (by norm_num [NODE_FULL]) (by
        intro h
        have := inSub_ge d (2 * index + 2) n hn
        omega)]
      exact hsibR n hn
    have hcapF : freeCap (setStatus tR index NODE_FULL) (d + 1) index = 0 := by
      rw [freeCap_of_inner _ d index (Or.inr hFull),
        freeCap_congr tR _ d hcongrL,
        freeCap_congr u _ d hcongrR, hcapL0, hcapR0]
    refine ⟨setStatus tR index NODE_FULL, offU, ?_, ?_, hoffB, hlo, by omega,
      ⟨pre, suf ++ liveList u d (2 * index + 2) (left + 2 ^ d), ?_, ?_, hl3⟩, ?_, ?_⟩
    · intro n hn
      rw [getStatus_setStatus_ne _ _ _ _ (by norm_num [NODE_FULL])
        (fun h => hn (by rw [h]; exact inSub_self (d + 1) index))]
      exact hframe n (fun hc => hn (inSub_left d index n hc))
    · constructor
      · intro h
        rw [hFull] at h
        simp [NODE_FULL, NODE_SPLIT] at h
      · intro _
        refine ⟨(Inv_congr tR _ d hcongrL).2 hinv, (Inv_congr u _ d hcongrR).2 hInvR, hcapF⟩
    · rw [hLu, hl1, List.append_assoc]
    · rw [liveList_of_inner _ d index left (Or.inr hFull),
        liveList_congr tR _ d hcongrL, liveList_congr u _ d hcongrR, hl2]
      simp
    · rw [hcapF, hCu, hcapR0]
      omega
    · rw [if_pos (Or.inr hFull)]
      rw [hform, if_pos hA]
      show markParent tR (2 * index + 1) (level + 1) = _
      rw [markParent]
      rw [buddyIdx_left, parentIdx_left, hR2]
      rw [if_pos ⟨by omega, hB⟩]
  · -- the walk stops below the parent: it stays SPLIT
    have hTL : TL = tR := by
      rw [hform]
      by_cases hA : getStatus tR (2 * index + 1) = NODE_USED ∨
          getStatus tR (2 * index + 1) = NODE_FULL
      · rw [if_pos hA]
        have hB : ¬(getStatus u (2 * index + 2) = NODE_USED ∨
            getStatus u (2 * index + 2) = NODE_FULL) := fun hB => hAB ⟨hA, hB⟩
        rw [markParent]
        rw [buddyIdx_left, hR2]
        rw [if_neg (fun hc => hB hc.2)]
      · rw [if_neg hA]
    have hSPL : getStatus tR index = NODE_SPLIT := by rw [hRidx, hsplit]
    have hcapT : freeCap tR (d + 1) index =
        freeCap tR d (2 * index + 1) + freeCap u d (2 * index + 2) := by
      rw [freeCap_of_inner _ d index (Or.inl hSPL), hcapR]
    have hcappos : 0 < freeCap tR (d + 1) index := by
      rw [hcapT]
      rcases Decidable.not_and_iff_or_not.1 hAB with hA | hB
      · have := (cap_zero_iff tR d (2 * index + 1) hinv).not
        have hne : freeCap tR d (2 * index + 1) ≠ 0 := by
          intro h0
          exact hA ((cap_zero_iff tR d _ hinv).1 h0)
        omega
      · have hne : freeCap u d (2 * index + 2) ≠ 0 := by
          intro h0
          exact hB ((cap_zero_iff u d _ hInvR).1 h0)
        omega
    refine ⟨tR, offU, ?_, ?_, hoffB, hlo, by omega,
      ⟨pre, suf ++ liveList u d (2 * index + 2) (left + 2 ^ d), ?_, ?_, hl3⟩, ?_, ?_⟩
    · intro n hn
      exact hframe n (fun hc => hn (inSub_left d index n hc))
    · constructor
      · intro _
        refine ⟨hinv, hInvR_tR, hcappos, ?_⟩
        rw [hcapT]
        omega
      · intro h
        rw [hSPL] at h
        simp [NODE_FULL, NODE_SPLIT] at h
    · rw [hLu, hl1, List.append_assoc]
    · rw [liveList_of_inner _ d index left (Or.inl hSPL), hl2, hLLR]
      simp
    · rw [hcapT, hCu]
      omega
    · rw [hTL, if_neg (by rw [hSPL]; simp [NODE_SPLIT, NODE_USED, NODE_FULL])]

/-- Lifting a successful right-child allocation (after the left child
failed) to its SPLIT parent. -/
theorem allocPost_step_right (min_level σ d : Nat) (u TR : Tree)
    (index level left offB : Nat) (hσ : σ ≤ d)
    (hsplit : getStatus u index = NODE_SPLIT)
    (hInvL : Inv u d (2 * index + 1))
    (hneNil : liveList u d (2 * index + 1) left ≠ [])
    (hpost : AllocPost min_level σ d u (2 * index + 2) (level + 1)
      (left + 2 ^ d) offB TR) :
    AllocPost min_level σ (d + 1) u index level left offB TR := by
  obtain ⟨tR, offU, hframe, hinv, hoffB, hlo, hhi,
    ⟨pre, suf, hl1, hl2, hl3⟩, hcap, hform⟩ := hpost
  have hneR : ∀ n, inSub d (2 * index + 2) n → n ≠ index := by
    intro n hn h
    have := inSub_ge d (2 * index + 2) n hn
    omega
  have hsibL : ∀ n, inSub d (2 * index + 1) n → getStatus tR n = getStatus u n :=
    fun n hn => hframe n (fun hc => inSub_sibling_disjoint index d n hn hc)
  have hR1 : getStatus tR (2 * index + 1) = getStatus u (2 * index + 1) :=
    hsibL _ (inSub_self d _)
  have hRidx : getStatus tR index = getStatus u index :=
    hframe _ (not_inSub_of_lt _ _ _ (by omega))
  have hInvL_tR : Inv tR d (2 * index + 1) := (Inv_congr u tR d hsibL).2 hInvL
  have hcapL : freeCap tR d (2 * index + 1) = freeCap u d (2 * index + 1) :=
    freeCap_congr u tR d hsibL
  have hLLL : liveList tR d (2 * index + 1) left =
      liveList u d (2 * index + 1) left := liveList_congr u tR d hsibL
  have hcapLle : freeCap u d (2 * index + 1) ≤ 2 ^ d := freeCap_le u d _
  have hcapRle : freeCap u d (2 * index + 2) ≤ 2 ^ d := freeCap_le u d _
  have hσle : (2 : Nat) ^ σ ≤ 2 ^ d := Nat.pow_le_pow_right (by norm_num) hσ
  have hσpos : (0 : Nat) < 2 ^ σ := by positivity
  have hpow : (2 : Nat) ^ (d + 1) = 2 ^ d + 2 ^ d := by rw [pow_succ]; omega
  have hLu : liveList u (d + 1) index left =
      liveList u d (2 * index + 1) left ++ liveList u d (2 * index + 2) (left + 2 ^ d) :=
    liveList_of_inner u d index left (Or.inl hsplit)
  have hCu : freeCap u (d + 1) index =
      freeCap u d (2 * index + 1) + freeCap u d (2 * index + 2) :=
    freeCap_of_inner u d index (Or.inl hsplit)
  have hl3' : liveList u d (2 * index + 1) left ++ pre = [] → offU = left := by
    intro h
    exact absurd (List.append_eq_nil.1 h).1 hneNil
  by_cases hAB : (getStatus tR (2 * index + 2) = NODE_USED ∨
      getStatus tR (2 * index + 2) = NODE_FULL) ∧
      (getStatus u (2 * index + 1) = NODE_USED ∨
        getStatus u (2 * index + 1) = NODE_FULL)
  · obtain ⟨hA, hB⟩ := hAB
    have hcapR0 : freeCap tR d (2 * index + 2) = 0 := (cap_zero_iff tR d _ hinv).2 hA
    have hcapL0 : freeCap u d (2 * index + 1) = 0 := (cap_zero_iff u d _ hInvL).2 hB
    have hFull : getStatus (setStatus tR index NODE_FULL) index = NODE_FULL :=
      getStatus_setStatus_self _ _ _ (by norm_num [NODE_FULL])
    have hcongrR : ∀ n, inSub d (2 * index + 2) n →
        getStatus (setStatus tR index NODE_FULL) n = getStatus tR n :=
      fun n hn => getStatus_setStatus_ne _ _ _ _ (by norm_num [NODE_FULL]) (hneR n hn)
    have hcongrL : ∀ n, inSub d (2 * index + 1) n →
        getStatus (setStatus tR index NODE_FULL) n = getStatus u n := by
      intro n hn
      rw [getStatus_setStatus_ne _ _ _ _ (by norm_num [NODE_FULL]) (by
        intro h
        have := inSub_ge d (2 * index + 1) n hn
        omega)]
      exact hsibL n hn
    have hcapF : freeCap (setStatus tR index NODE_FULL) (d + 1) index = 0 := by
      rw [freeCap_of_inner _ d index (Or.inr hFull),
        freeCap_congr u _ d hcongrL,
        freeCap_congr tR _ d hcongrR, hcapL0, hcapR0]
    refine ⟨setStatus tR index NODE_FULL, offU,
      ?_, ?_, hoffB, by omega, by omega,
      ⟨liveList u d (2 * index + 1) left ++ pre, suf, ?_, ?_, hl3'⟩, ?_, ?_⟩
    · intro n hn
      rw [getStatus_setStatus_ne _ _ _ _ (by norm_num [NODE_FULL])
        (fun h => hn (by rw [h]; exact inSub_self (d + 1) index))]
      exact hframe n (fun hc => hn (inSub_right d index n hc))
    · constructor
      · intro h
        rw [hFull] at h
        simp [NODE_FULL, NODE_SPLIT] at h
      · intro _
        refine ⟨(Inv_congr u _ d hcongrL).2 hInvL, (Inv_congr tR _ d hcongrR).2 hinv, hcapF⟩
    · rw [hLu, hl1, List.append_assoc]
    · rw [liveList_of_inner _ d index left (Or.inr hFull),
        liveList_congr u _ d hcongrL, liveList_congr tR _ d hcongrR, hl2]
      simp
    · rw [hcapF, hCu, hcapL0]
      omega
    · rw [if_pos (Or.inr hFull)]
      rw [hform, if_pos hA]
      show markParent tR (2 * index + 2) (level + 1) = _
      rw [markParent]
      rw [buddyIdx_right, parentIdx_right, hR1]
      rw [if_pos ⟨by omega, hB⟩]
  · have hTR : TR = tR := by
      rw [hform]
      by_cases hA : getStatus tR (2 * index + 2) = NODE_USED ∨
          getStatus tR (2 * index + 2) = NODE_FULL
      · rw [if_pos hA]
        have hB : ¬(getStatus u (2 * index + 1) = NODE_USED ∨
            getStatus u (2 * index + 1) = NODE_FULL) := fun hB => hAB ⟨hA, hB⟩
        rw [markParent]
        rw [buddyIdx_right, hR1]
        rw [if_neg (fun hc => hB hc.2)]
      · rw [if_neg hA]
    have hSPL : getStatus tR index = NODE_SPLIT := by rw [hRidx, hsplit]
    have hcapT : freeCap tR (d + 1) index =
        freeCap u d (2 * index + 1) + freeCap tR d (2 * index + 2) := by
      rw [freeCap_of_inner _ d index (Or.inl hSPL), hcapL]
    have hcappos : 0 < freeCap tR (d + 1) index := by
      rw [hcapT]
      rcases Decidable.not_and_iff_or_not.1 hAB with hA | hB
      · have hne : freeCap tR d (2 * index + 2) ≠ 0 := by
          intro h0
          exact hA ((cap_zero_iff tR d _ hinv).1 h0)
        omega
      · have hne : freeCap u d (2 * index + 1) ≠ 0 := by
          intro h0
          exact hB ((cap_zero_iff u d _ hInvL).1 h0)
        omega
    refine ⟨tR, offU, ?_, ?_, hoffB, by omega, by omega,
      ⟨liveList u d (2 * index + 1) left ++ pre, suf, ?_, ?_, hl3'⟩, ?_, ?_⟩
    · intro n hn
      exact hframe n (fun hc => hn (inSub_right d index n hc))
    · constructor
      · intro _
        refine ⟨hInvL_tR, hinv, hcappos, ?_⟩
        rw [hcapT]
        omega
      · intro h
        rw [hSPL] at h
        simp [NODE_FULL, NODE_SPLIT] at h
    · rw [hLu, hl1, List.append_assoc]
    · rw [liveList_of_inner _ d index left (Or.inl hSPL), hl2, hLLL]
      simp
    · rw [hcapT, hCu]
      omega
    · rw [hTR, if_neg (by rw [hSPL]; simp [NODE_SPLIT, NODE_USED, NODE_FULL])]

/-- A lazy split of an UNUSED node changes neither the live list, the
free capacity, nor the statuses outside the subtree, so the
postcondition transfers from the split tree back to the original. -/
theorem allocPost_split_lift (min_level σ d : Nat) (t T : Tree)
    (index level left offB : Nat)
    (hU : getStatus t index = NODE_UNUSED)
    (hpost : AllocPost min_level σ (d + 1)
      (setStatus (setStatus (setStatus t index NODE_SPLIT)
        (2 * index + 1) NODE_UNUSED) (2 * index + 2) NODE_UNUSED)
      index level left offB T) :
    AllocPost min_level σ (d + 1) t index level left offB T := by
  obtain ⟨tR, offU, hframe, hinv, hoffB, hlo, hhi,
    ⟨pre, suf, hl1, hl2, hl3⟩, hcap, hform⟩ := hpost
  have hLt1 : liveList (setStatus (setStatus (setStatus t index NODE_SPLIT)
      (2 * index + 1) NODE_UNUSED) (2 * index + 2) NODE_UNUSED)
      (d + 1) index left = [] := by
    rw [liveList_of_inner _ d index left (Or.inl (split_status_self t index)),
      liveList_of_unused _ d _ _ (split_status_left t index),
      liveList_of_unused _ d _ _ (split_status_right t index)]
    simp
  have hCt1 : freeCap (setStatus (setStatus (setStatus t index NODE_SPLIT)
      (2 * index + 1) NODE_UNUSED) (2 * index + 2) NODE_UNUSED)
      (d + 1) index = 2 ^ (d + 1) := by
    rw [freeCap_of_inner _ d index (Or.inl (split_status_self t index)),
      freeCap_of_unused _ d _ (split_status_left t index),
      freeCap_of_unused _ d _ (split_status_right t index), pow_succ]
    omega
  refine ⟨tR, offU, ?_, hinv, hoffB, hlo, hhi, ⟨pre, suf, ?_, hl2, hl3⟩, ?_, hform⟩
  · intro n hn
    rw [hframe n hn]
    exact split_status_other t index n
      (fun h => hn (by rw [h]; exact inSub_self _ _))
      (fun h => hn (by rw [h]; exact inSub_left d index _ (inSub_self d _)))
      (fun h => hn (by rw [h]; exact inSub_right d index _ (inSub_self d _)))
  · rw [liveList_of_unused t (d + 1) index left hU]
    rw [hLt1] at hl1
    exact hl1
  · rw [freeCap_of_unused t (d + 1) index hU]
    rw [hCt1] at hcap
    exact hcap

/-- Main specification of the `buddy_alloc` search: a successful
allocation satisfies `AllocPost`. -/
theorem allocAt_spec (min_level lvl σ : Nat) :
    ∀ d t index level left offB T,
      level + d = lvl → σ ≤ d → Inv t d index →
      left = (index + 1 - 2 ^ level) * 2 ^ d →
      2 ^ level ≤ index + 1 →
      allocAt min_level lvl t (2 ^ σ) index level d = (some offB, T) →
      AllocPost min_level σ d t index level left offB T := by
  intro d
  induction d with
  | zero =>
    intro t index level left offB T hlvl hσ hInv hleft hlo hres
    have hσ0 : σ = 0 := by omega
    subst hσ0
    simp only [allocAt, pow_zero, if_true] at hres
    by_cases hU : getStatus t index = NODE_UNUSED
    · rw [if_pos hU] at hres
      simp only [Prod.mk.injEq, Option.some.injEq] at hres
      obtain ⟨rfl, rfl⟩ := hres
      exact allocAt_spec_eq min_level lvl t 0 index level left hU hlvl hleft
    · rw [if_neg hU] at hres
      simp at hres
  | succ d ih =>
    intro t index level left offB T hlvl hσ hInv hleft hlo hres
    by_cases hsz : (2 : Nat) ^ σ = 2 ^ (d + 1)
    · have hσd : σ = d + 1 := Nat.pow_right_injective (le_refl 2) hsz
      subst hσd
      simp only [allocAt, if_true] at hres
      by_cases hU : getStatus t index = NODE_UNUSED
      · rw [if_pos hU] at hres
        simp only [Prod.mk.injEq, Option.some.injEq] at hres
        obtain ⟨rfl, rfl⟩ := hres
        exact allocAt_spec_eq min_level lvl t (d + 1) index level left hU hlvl hleft
      · rw [if_neg hU] at hres
        simp at hres
    · have hσd : σ ≤ d := by
        have h1 : σ ≠ d + 1 := fun h => hsz (by rw [h])
        omega
      simp only [allocAt, if_neg hsz] at hres
      have h2l : (2 : Nat) ^ (level + 1) = 2 * 2 ^ level := by rw [pow_succ]; ring
      have hleftL : left = (2 * index + 1 + 1 - 2 ^ (level + 1)) * 2 ^ d := by
        have hsub : 2 * index + 1 + 1 - 2 ^ (level + 1) = 2 * (index + 1 - 2 ^ level) := by
          omega
        rw [hsub, hleft, pow_succ]
        ring
      have hleftR : left + 2 ^ d = (2 * index + 2 + 1 - 2 ^ (level + 1)) * 2 ^ d := by
        have hsub : 2 * index + 2 + 1 - 2 ^ (level + 1) = 2 * (index + 1 - 2 ^ level) + 1 := by
          omega
        rw [hsub, hleft, pow_succ]
        ring
      have hloL : 2 ^ (level + 1) ≤ 2 * index + 1 + 1 := by omega
      have hloR : 2 ^ (level + 1) ≤ 2 * index + 2 + 1 := by omega
      by_cases hUF : getStatus t index = NODE_USED ∨ getStatus t index = NODE_FULL
      · rw [if_pos hUF] at hres
        simp at hres
      · rw [if_neg hUF] at hres
        by_cases hU : getStatus t index = NODE_UNUSED
        · rw [if_pos hU] at hres
          rcases hresL : allocAt min_level lvl
              (setStatus (setStatus (setStatus t index NODE_SPLIT)
                (2 * index + 1) NODE_UNUSED) (2 * index + 2) NODE_UNUSED)
              (2 ^ σ) (2 * index + 1) (level + 1) d with ⟨oL, tL⟩
          rw [hresL] at hres
          cases oL with
          | none =>
            exfalso
            have hsome := allocAt_unused_isSome min_level lvl σ d _ (2 * index + 1)
              (level + 1) hσd (split_status_left t index)
            rw [hresL] at hsome
            simp at hsome
          | some offL =>
            simp only [Prod.mk.injEq, Option.some.injEq] at hres
            obtain ⟨rfl, rfl⟩ := hres
            refine allocPost_split_lift min_level σ d t _ index level left _ hU ?_
            refine allocPost_step_left min_level σ d _ _ index level left _ hσd
              (split_status_self t index)
              (Inv_of_unused _ _ _ (split_status_right t index)) ?_
            exact ih _ (2 * index + 1) (level + 1) left offL tL (by omega) hσd
              (Inv_of_unused _ _ _ (split_status_left t index)) hleftL hloL hresL
        · rw [if_neg hU] at hres
          have hSPL : getStatus t index = NODE_SPLIT := by
            rcases status_cases t index with h | h | h | h
            · exact absurd h hU
            · exact absurd (Or.inl h) hUF
            · exact h
            · exact absurd (Or.inr h) hUF
          obtain ⟨hInvL, hInvR, _, _⟩ := hInv.1 hSPL
          rcases hresL : allocAt min_level lvl t (2 ^ σ) (2 * index + 1)
              (level + 1) d with ⟨oL, tL⟩
          rw [hresL] at hres
          cases oL with
          | some offL =>
            simp only [Prod.mk.injEq, Option.some.injEq] at hres
            obtain ⟨rfl, rfl⟩ := hres
            refine allocPost_step_left min_level σ d t _ index level left _ hσd
              hSPL hInvR ?_
            exact ih t (2 * index + 1) (level + 1) left offL tL (by omega) hσd
              hInvL hleftL hloL hresL
          | none =>
            simp only at hres
            have htL : tL = t := by
              have h3 := allocAt_none_eq min_level lvl σ d t (2 * index + 1)
                (level + 1) hσd
              rw [hresL] at h3
              exact h3 rfl
            rw [htL] at hres
            have hneNil : liveList t d (2 * index + 1) left ≠ [] := by
              refine liveList_ne_nil_of_alloc_none min_level lvl σ d t
                (2 * index + 1) (level + 1) left hσd hInvL ?_
              rw [hresL]
            refine allocPost_step_right min_level σ d t _ index level left _ hσd
              hSPL hInvL hneNil ?_
            exact ih t (2 * index + 2) (level + 1) (left + 2 ^ d) offB T (by omega)
              hσd hInvR hleftR hloR hres

/-! ## Correctness of the size rounding -/

/-- `b` covers `x` with window `w`: bit `i` of `b` is the OR of bits
`i .. i+w-1` of `x`.  The shift-or cascade of `next_pow_of_2` doubles
the window at each step. -/
def Covers (b x w : Nat) : Prop :=
  ∀ i, (b.testBit i = true ↔ ∃ j, j < w ∧ x.testBit (i + j) = true)

theorem covers_one (x : Nat) : Covers x x 1 := by
  intro i
  constructor
  · intro h
    exact ⟨0, by norm_num, by simpa using h⟩
  · rintro ⟨j, hj, hbit⟩
    have hj0 : j = 0 := by omega
    subst hj0
    simpa using hbit

theorem covers_step (b x w : Nat) (h : Covers b x w) :
    Covers (b ||| (b >>> w)) x (w + w) := by
  intro i
  rw [Nat.testBit_or, Nat.testBit_shiftRight]
  constructor
  · intro hor
    rcases Bool.or_eq_true_iff.1 hor with hb | hb
    · obtain ⟨j, hj, hbit⟩ := (h i).1 hb
      exact ⟨j, by omega, hbit⟩
    · obtain ⟨j, hj, hbit⟩ := (h (w + i)).1 hb
      refine ⟨w + j, by omega, ?_⟩
      rw [show i + (w + j) = w + i + j by omega]
      exact hbit
  · rintro ⟨j, hj, hbit⟩
    rcases Nat.lt_or_ge j w with hlt | hge
    · have hb := (h i).2 ⟨j, hlt, hbit⟩
      simp [hb]
    · have hb := (h (w + i)).2 ⟨j - w, by omega, by
        rw [show w + i + (j - w) = i + j by omega]
        exact hbit⟩
      simp [hb]

/-- The bit trick `!(x & (x-1))` really tests for powers of two (and
zero). -/
theorem is_pow_of_2_iff (x : Nat) (h1 : 1 ≤ x) :
    is_pow_of_2 x = true ↔ ∃ k, x = 2 ^ k := by
  unfold is_pow_of_2
  rw [beq_iff_eq]
  constructor
  · intro h0
    refine ⟨Nat.log 2 x, ?_⟩
    by_contra hne
    have hk1 : 2 ^ Nat.log 2 x ≤ x := Nat.pow_log_le_self 2 (by omega)
    have hk2 : x < 2 ^ (Nat.log 2 x + 1) := Nat.lt_pow_succ_log_self (by norm_num) x
    have hgt : 2 ^ Nat.log 2 x < x := lt_of_le_of_ne hk1 (fun h => hne h.symm)
    have hpos : 0 < 2 ^ Nat.log 2 x := by positivity
    have h2p : (2 : Nat) ^ (Nat.log 2 x + 1) = 2 * 2 ^ Nat.log 2 x := by
      rw [pow_succ]
      ring
    have hdiv : x / 2 ^ Nat.log 2 x = 1 := by
      have hlo : 1 ≤ x / 2 ^ Nat.log 2 x := (Nat.one_le_div_iff hpos).2 hk1
      have hhi : x / 2 ^ Nat.log 2 x < 2 := by
        rw [Nat.div_lt_iff_lt_mul hpos]
        omega
      omega
    have hdiv1 : (x - 1) / 2 ^ Nat.log 2 x = 1 := by
      have hlo : 1 ≤ (x - 1) / 2 ^ Nat.log 2 x := (Nat.one_le_div_iff hpos).2 (by omega)
      have hhi : (x - 1) / 2 ^ Nat.log 2 x < 2 := by
        rw [Nat.div_lt_iff_lt_mul hpos]
        omega
      omega
    have hb1 : x.testBit (Nat.log 2 x) = true := by
      rw [Nat.testBit_to_div_mod, hdiv]
      decide
    have hb2 : (x - 1).testBit (Nat.log 2 x) = true := by
      rw [Nat.testBit_to_div_mod, hdiv1]
      decide
    have hband : (x &&& (x - 1)).testBit (Nat.log 2 x) = true := by
      rw [Nat.testBit_and, hb1, hb2]
      rfl
    rw [h0] at hband
    simp at hband
  · rintro ⟨k, rfl⟩
    refine Nat.eq_of_testBit_eq (fun i => ?_)
    rw [Nat.testBit_and, Nat.testBit_two_pow_sub_one, Nat.zero_testBit,
      Nat.testBit_two_pow]
    by_cases hik : k = i
    · subst hik
      simp
    · simp [hik]

/-- `next_pow_of_2` returns the least power of two `≥ x`, for all
requests up to `2^31`. -/
theorem next_pow_of_2_spec (x : Nat) (h1 : 1 ≤ x) (h2 : x ≤ 2 ^ 31) :
    ∃ k, k ≤ 31 ∧ next_pow_of_2 x = 2 ^ k ∧ x ≤ 2 ^ k ∧ 2 ^ k < 2 * x := by
  have hx32 : x % 2 ^ 32 = x := Nat.mod_eq_of_lt (by omega)
  simp only [next_pow_of_2, hx32]
  by_cases hp : is_pow_of_2 x = true
  · rw [if_pos hp]
    obtain ⟨k, rfl⟩ := (is_pow_of_2_iff x h1).1 hp
    have hk31 : k ≤ 31 := by
      by_contra hk
      have : (2 : Nat) ^ 32 ≤ 2 ^ k := Nat.pow_le_pow_right (by norm_num) (by omega)
      omega
    have hpos : 0 < (2 : Nat) ^ k := by positivity
    exact ⟨k, hk31, rfl, le_refl _, by omega⟩
  · rw [if_neg hp]
    have hk1 : 2 ^ Nat.log 2 x ≤ x := Nat.pow_log_le_self 2 (by omega)
    have hk2 : x < 2 ^ (Nat.log 2 x + 1) := Nat.lt_pow_succ_log_self (by norm_num) x
    have hne : x ≠ 2 ^ Nat.log 2 x := fun h =>
      hp ((is_pow_of_2_iff x h1).2 ⟨_, h⟩)
    have hlt : 2 ^ Nat.log 2 x < x := lt_of_le_of_ne hk1 (fun h => hne h.symm)
    have hxlt : x < 2 ^ 31 := by
      rcases Nat.lt_or_ge x (2 ^ 31) with h | h
      · exact h
      · have hx31 : x = 2 ^ 31 := by omega
        exact absurd ((is_pow_of_2_iff x h1).2 ⟨31, hx31⟩) hp
    have hL31 : Nat.log 2 x + 1 ≤ 31 := by
      have := Nat.log_lt_of_lt_pow (by omega : x ≠ 0) hxlt
      omega
    have hmsb : x.testBit (Nat.log 2 x) = true := by
      have hpos : 0 < 2 ^ Nat.log 2 x := by positivity
      have h2p : (2 : Nat) ^ (Nat.log 2 x + 1) = 2 * 2 ^ Nat.log 2 x := by
        rw [pow_succ]
        ring
      have hdiv : x / 2 ^ Nat.log 2 x = 1 := by
        have hlo : 1 ≤ x / 2 ^ Nat.log 2 x := (Nat.one_le_div_iff hpos).2 hk1
        have hhi : x / 2 ^ Nat.log 2 x < 2 := by
          rw [Nat.div_lt_iff_lt_mul hpos]
          omega
        omega
      rw [Nat.testBit_to_div_mod, hdiv]
      decide
    have c2 : Covers (x ||| x >>> 1) x 2 := covers_step x x 1 (covers_one x)
    have c3 : Covers (x ||| x >>> 1 ||| (x ||| x >>> 1) >>> 2) x 4 :=
      covers_step _ x 2 c2
    have c4 : Covers (x ||| x >>> 1 ||| (x ||| x >>> 1) >>> 2 |||
        (x ||| x >>> 1 ||| (x ||| x >>> 1) >>> 2) >>> 4) x 8 :=
      covers_step _ x 4 c3
    have c5 : Covers (x ||| x >>> 1 ||| (x ||| x >>> 1) >>> 2 |||
        (x ||| x >>> 1 ||| (x ||| x >>> 1) >>> 2) >>> 4 |||
        (x ||| x >>> 1 ||| (x ||| x >>> 1) >>> 2 |||
          (x ||| x >>> 1 ||| (x ||| x >>> 1) >>> 2) >>> 4) >>> 8) x 16 :=
      covers_step _ x 8 c4
    have c6 : Covers (x ||| x >>> 1 ||| (x ||| x >>> 1) >>> 2 |||
        (x ||| x >>> 1 ||| (x ||| x >>> 1) >>> 2) >>> 4 |||
        (x ||| x >>> 1 ||| (x ||| x >>> 1) >>> 2 |||
          (x ||| x >>> 1 ||| (x ||| x >>> 1) >>> 2) >>> 4) >>> 8 |||
        (x ||| x >>> 1 ||| (x ||| x >>> 1) >>> 2 |||
          (x ||| x >>> 1 ||| (x ||| x >>> 1) >>> 2) >>> 4 |||
          (x ||| x >>> 1 ||| (x ||| x >>> 1) >>> 2 |||
            (x ||| x >>> 1 ||| (x ||| x >>> 1) >>> 2) >>> 4) >>> 8) >>> 16) x 32 :=
      covers_step _ x 16 c5
    have hy : (x ||| x >>> 1 ||| (x ||| x >>> 1) >>> 2 |||
        (x ||| x >>> 1 ||| (x ||| x >>> 1) >>> 2) >>> 4 |||
        (x ||| x >>> 1 ||| (x ||| x >>> 1) >>> 2 |||
          (x ||| x >>> 1 ||| (x ||| x >>> 1) >>> 2) >>> 4) >>> 8 |||
        (x ||| x >>> 1 ||| (x ||| x >>> 1) >>> 2 |||
          (x ||| x >>> 1 ||| (x ||| x >>> 1) >>> 2) >>> 4 |||
          (x ||| x >>> 1 ||| (x ||| x >>> 1) >>> 2 |||
            (x ||| x >>> 1 ||| (x ||| x >>> 1) >>> 2) >>> 4) >>> 8) >>> 16) =
        2 ^ (Nat.log 2 x + 1) - 1 := by
      refine Nat.eq_of_testBit_eq (fun i => ?_)
      rw [Nat.testBit_two_pow_sub_one]
      by_cases hi : i < Nat.log 2 x + 1
      · have hb := (c6 i).2 ⟨Nat.log 2 x - i, by omega, by
          rw [show i + (Nat.log 2 x - i) = Nat.log 2 x by omega]
          exact hmsb⟩
        rw [hb]
        simp [hi]
      · cases hbool : (x ||| x >>> 1 ||| (x ||| x >>> 1) >>> 2 |||
            (x ||| x >>> 1 ||| (x ||| x >>> 1) >>> 2) >>> 4 |||
            (x ||| x >>> 1 ||| (x ||| x >>> 1) >>> 2 |||
              (x ||| x >>> 1 ||| (x ||| x >>> 1) >>> 2) >>> 4) >>> 8 |||
            (x ||| x >>> 1 ||| (x ||| x >>> 1) >>> 2 |||
              (x ||| x >>> 1 ||| (x ||| x >>> 1) >>> 2) >>> 4 |||
              (x ||| x >>> 1 ||| (x ||| x >>> 1) >>> 2 |||
                (x ||| x >>> 1 ||| (x ||| x >>> 1) >>> 2) >>> 4) >>> 8) >>> 16).testBit i with
        | false => simp [hi]
        | true =>
          exfalso
          obtain ⟨j, _, hbit⟩ := (c6 i).1 hbool
          have hlt2 : x < 2 ^ (i + j) :=
            lt_of_lt_of_le hk2 (Nat.pow_le_pow_right (by norm_num) (by omega))
          rw [Nat.testBit_lt_two_pow hlt2] at hbit
          exact Bool.false_ne_true hbit
    rw [hy]
    have hpos : 0 < (2 : Nat) ^ (Nat.log 2 x + 1) := by positivity
    have hsum : 2 ^ (Nat.log 2 x + 1) - 1 + 1 = 2 ^ (Nat.log 2 x + 1) := by omega
    rw [hsum]
    have hlt32 : (2 : Nat) ^ (Nat.log 2 x + 1) < 2 ^ 32 := by
      have := Nat.pow_le_pow_right (show 1 ≤ 2 by norm_num) hL31
      omega
    rw [Nat.mod_eq_of_lt hlt32]
    refine ⟨Nat.log 2 x + 1, hL31, rfl, le_of_lt hk2, ?_⟩
    rw [pow_succ]
    omega

/-- The block size (in bytes) the spec promises for a request of `s`
bytes: the minimum block if `s` fits in it, otherwise the next power of
two (§4.3 of the spec). -/
def expectedSize (min_level s : Nat) : Nat :=
  if s ≤ 2 ^ min_level then 2 ^ min_level else next_pow_of_2 s

/-- For requests up to `2^30` bytes the allocation unit is an exact
power of two and scales `expectedSize` down by `min_level`. -/
theorem allocUnit_spec (min_level s : Nat) (hs : s ≤ 2 ^ 30) :
    ∃ σ, allocUnit min_level s = 2 ^ σ ∧
      expectedSize min_level s = 2 ^ (σ + min_level) ∧
      s ≤ expectedSize min_level s ∧
      2 ^ min_level ≤ expectedSize min_level s ∧
      (expectedSize min_level s < 2 * s ∨ expectedSize min_level s = 2 ^ min_level) := by
  unfold allocUnit expectedSize
  by_cases hle : s ≤ 2 ^ min_level
  · rw [if_pos hle, if_pos hle]
    exact ⟨0, rfl, by norm_num, hle, le_refl _, Or.inr rfl⟩
  · rw [if_neg hle, if_neg hle]
    have hp2 : 0 < 2 ^ min_level := by positivity
    have h1 : 1 ≤ s := by omega
    obtain ⟨k, hk31, hknp, hkx, hklt⟩ := next_pow_of_2_spec s h1 (by
      have h30 : (2 : Nat) ^ 30 ≤ 2 ^ 31 := by norm_num
      omega)
    have hkgt : 2 ^ min_level < 2 ^ k := by omega
    have hmink : min_level < k := by
      by_contra hc
      have := Nat.pow_le_pow_right (show 1 ≤ 2 by norm_num) (show k ≤ min_level by omega)
      omega
    refine ⟨k - min_level, ?_, ?_, ?_, ?_, ?_⟩
    · rw [hknp, Nat.shiftRight_eq_div_pow, Nat.pow_div (by omega) (by norm_num)]
    · rw [hknp]
      congr 1
      omega
    · rw [hknp]
      exact hkx
    · rw [hknp]
      omega
    · rw [hknp]
      exact Or.inl hklt

/-- `buddy_alloc`: a failed call returns the tree untouched. -/
theorem buddy_alloc_none_spec (min_level lvl : Nat) (t : Tree) (s : Nat)
    (hs : s ≤ 2 ^ 30)
    (hnone : (buddy_alloc min_level lvl t s).1 = none) :
    (buddy_alloc min_level lvl t s).2 = t := by
  obtain ⟨σ, hσ, _, _, _⟩ := allocUnit_spec min_level s hs
  simp only [buddy_alloc, hσ] at hnone ⊢
  by_cases hbig : 2 ^ lvl < 2 ^ σ
  · rw [if_pos hbig]
  · rw [if_neg hbig] at hnone ⊢
    have hσl : σ ≤ lvl := by
      by_contra hc
      have := Nat.pow_le_pow_right (show 1 ≤ 2 by norm_num) (show lvl ≤ σ by omega)
      have := Nat.pow_lt_pow_right (show 1 < 2 by norm_num) (show lvl < σ by omega)
      omega
    exact allocAt_none_eq min_level lvl σ lvl t 0 0 hσl hnone

/-- `buddy_alloc`: wrapper-level specification of a successful call on
an invariant-satisfying tree. -/
theorem buddy_alloc_some_spec (min_level lvl : Nat) (t : Tree) (s b : Nat)
    (T : Tree) (hs : s ≤ 2 ^ 30) (hInv : Inv t lvl 0)
    (hres : buddy_alloc min_level lvl t s = (some b, T)) :
    Inv T lvl 0 ∧
    (∃ pre suf, liveList t lvl 0 0 = pre ++ suf ∧
      liveList T lvl 0 0 = pre ++ (b >>> min_level, allocUnit min_level s) :: suf) ∧
    b = (b >>> min_level) * 2 ^ min_level ∧
    b >>> min_level + allocUnit min_level s ≤ 2 ^ lvl ∧
    (liveList t lvl 0 0 = [] → b >>> min_level = 0) := by
  obtain ⟨σ, hσ, _, _, _⟩ := allocUnit_spec min_level s hs
  simp only [buddy_alloc, hσ] at hres
  by_cases hbig : 2 ^ lvl < 2 ^ σ
  · rw [if_pos hbig] at hres
    simp at hres
  · rw [if_neg hbig] at hres
    have hσl : σ ≤ lvl := by
      by_contra hc
      have := Nat.pow_lt_pow_right (show 1 < 2 by norm_num) (show lvl < σ by omega)
      omega
    obtain ⟨tR, offU, hframe, hinv, hoffB, hlo, hhi,
      ⟨pre, suf, hl1, hl2, hl3⟩, hcap, hform⟩ :=
      allocAt_spec min_level lvl σ lvl t 0 0 0 b T (by omega) hσl hInv (by simp)
        (by norm_num) hres
    have hT : T = tR := by
      rw [hform]
      by_cases hc : getStatus tR 0 = NODE_USED ∨ getStatus tR 0 = NODE_FULL
      · rw [if_pos hc]
        rfl
      · rw [if_neg hc]
    subst hT
    have hoffU : b >>> min_level = offU := by
      rw [hoffB, Nat.shiftRight_eq_div_pow, Nat.mul_div_cancel _ (by positivity)]
    constructor
    · exact hinv
    refine ⟨⟨pre, suf, hl1, ?_⟩, ?_, ?_, ?_⟩
    · rw [hl2, hoffU, hσ]
    · rw [hoffU, ← hoffB]
    · rw [hoffU, hσ]
      simpa using hhi
    · intro hnil
      rw [hnil] at hl1
      rw [hoffU, hl3 (List.append_eq_nil.1 hl1.symm).1]

/-- The ghost-state reachability relation: trees (with the list of live
caller allocations, as unit offset / unit width pairs) obtainable from
a freshly constructed pool by `buddy_alloc` / `buddy_free` calls that
respect the usage protocol (only live allocations are freed). -/
inductive Reach (min_level lvl : Nat) : Tree → List (Nat × Nat) → Prop
  | init : Reach min_level lvl (freshTree min_level lvl) []
  | alloc (t : Tree) (gl : List (Nat × Nat)) (s b : Nat) (t' : Tree) :
      Reach min_level lvl t gl → s ≤ 2 ^ 30 →
      buddy_alloc min_level lvl t s = (some b, t') →
      Reach min_level lvl t' ((b >>> min_level, allocUnit min_level s) :: gl)
  | free (t : Tree) (gl : List (Nat × Nat)) (u w b : Nat) (t' : Tree) :
      Reach min_level lvl t gl → (u, w) ∈ gl → b >>> min_level = u →
      buddy_free min_level lvl t b = some t' →
      Reach min_level lvl t' (gl.erase (u, w))

/-! ## `buddy_free`: specification -/

theorem combine_stop (t : Tree) (i f : Nat)
    (h : i = 0 ∨ getStatus t (buddyIdx i) ≠ NODE_UNUSED) :
    combine t i f = demoteFull (setStatus t i NODE_UNUSED) i f := by
  rw [combine.eq_def]
  dsimp only
  rw [if_pos h]

theorem combine_up (t : Tree) (i f : Nat)
    (h : ¬ (i = 0 ∨ getStatus t (buddyIdx i) ≠ NODE_UNUSED)) :
    combine t i (f + 1) = combine t (parentIdx i) f := by
  rw [combine.eq_def]
  dsimp only
  rw [if_neg h]

theorem demoteFull_root (t : Tree) (f : Nat) : demoteFull t 0 f = t := by
  rw [demoteFull.eq_def]
  dsimp only
  rw [if_pos rfl]

theorem demoteFull_step (t : Tree) (i f : Nat) (h0 : i ≠ 0)
    (h : getStatus t (parentIdx i) = NODE_FULL) :
    demoteFull t i (f + 1) =
      demoteFull (setStatus t (parentIdx i) NODE_SPLIT) (parentIdx i) f := by
  rw [demoteFull.eq_def]
  dsimp only
  rw [if_neg h0, if_pos h]

theorem demoteFull_stop (t : Tree) (i f : Nat) (h0 : i ≠ 0)
    (h : getStatus t (parentIdx i) ≠ NODE_FULL) :
    demoteFull t i f = t := by
  rw [demoteFull.eq_def]
  dsimp only
  rw [if_neg h0, if_neg h]

theorem sum_pos_of_ne_nil (t : Tree) (d : Nat) {index left : Nat}
    (h : liveList t d index left ≠ []) :
    0 < ((liveList t d index left).map Prod.snd).sum := by
  rcases hl : liveList t d index left with _ | ⟨p, rest⟩
  · exact absurd hl h
  · have hp := liveList_mem_bounds t d p (by rw [hl]; simp)
    simp only [List.map_cons, List.sum_cons]
    omega

/-- A reachable subtree that is not UNUSED holds at least one live
block. -/
theorem liveList_ne_nil_of_not_unused (t : Tree) (d : Nat) {index left : Nat}
    (hInv : Inv t d index) (h : getStatus t index ≠ NODE_UNUSED) :
    liveList t d index left ≠ [] := by
  intro hnil
  have hc := @capSum t d index left hInv
  rw [hnil] at hc
  simp at hc
  rcases status_cases t index with hs | hs | hs | hs
  · exact h hs
  · rw [freeCap_of_used t d index hs] at hc
    have : (0 : Nat) < 2 ^ d := by positivity
    omega
  · cases d with
    | zero => exact absurd hs (by simpa [NODE_SPLIT] using hInv.1)
    | succ d =>
      obtain ⟨_, _, _, hlt⟩ := hInv.1 hs
      omega
  · cases d with
    | zero => exact absurd hs (by simpa [NODE_FULL] using hInv.2)
    | succ d =>
      obtain ⟨_, _, h0⟩ := hInv.2 hs
      have : (0 : Nat) < 2 ^ (d + 1) := by positivity
      omega

/-- A subtree still holding a live block has free capacity strictly
below its size. -/
theorem cap_lt_of_live_ne_nil (t : Tree) (d : Nat) {index left : Nat}
    (hInv : Inv t d index) (h : liveList t d index left ≠ []) :
    freeCap t d index < 2 ^ d := by
  have hc := @capSum t d index left hInv
  have := sum_pos_of_ne_nil t d h
  omega

theorem cap_lt_of_not_unused (t : Tree) (d : Nat) {index : Nat}
    (hInv : Inv t d index) (h : getStatus t index ≠ NODE_UNUSED) :
    freeCap t d index < 2 ^ d :=
  @cap_lt_of_live_ne_nil t d index 0 hInv
    (liveList_ne_nil_of_not_unused t d hInv h)

/-- An offset that is not the start of a live block makes the descent
of `buddy_free` hit a failing assertion. -/
theorem freeAt_invalid (d : Nat) :
    ∀ t off left index level,
      off ∉ (liveList t d index left).map Prod.fst →
      freeAt t off left index level d = none := by
  induction d with
  | zero =>
    intro t off left index level hmem
    simp only [freeAt]
    by_cases hU : getStatus t index = NODE_USED
    · rw [if_pos hU]
      rw [liveList_of_used t 0 index left hU] at hmem
      simp at hmem
      rw [if_neg (by omega)]
    · rw [if_neg hU]
      by_cases h0 : getStatus t index = NODE_UNUSED
      · rw [if_pos h0]
      · rw [if_neg h0]
  | succ d ih =>
    intro t off left index level hmem
    simp only [freeAt]
    by_cases hU : getStatus t index = NODE_USED
    · rw [if_pos hU]
      rw [liveList_of_used t (d + 1) index left hU] at hmem
      simp at hmem
      rw [if_neg (by omega)]
    · rw [if_neg hU]
      by_cases h0 : getStatus t index = NODE_UNUSED
      · rw [if_pos h0]
      · rw [if_neg h0]
        have hsf : getStatus t index = NODE_SPLIT ∨ getStatus t index = NODE_FULL := by
          rcases status_cases t index with h | h | h | h
          · exact absurd h h0
          · exact absurd h hU
          · exact Or.inl h
          · exact Or.inr h
        rw [liveList_of_inner t d index left hsf, List.map_append] at hmem
        simp only [List.mem_append] at hmem
        push_neg at hmem
        by_cases hside : off < left + 2 ^ d
        · rw [if_pos hside]
          exact ih t off left (2 * index + 1) (level + 1) hmem.1
        · rw [if_neg hside]
          exact ih t off (left + 2 ^ d) (2 * index + 2) (level + 1) hmem.2

/-- Postcondition of a valid `buddy_free` descent on the subtree of
`index` (depth `d`, unit offset `left`), freeing the live block
`(off, w)`.  Either the coalescing walk of `_combine` is still pending
at `index` (every buddy below was UNUSED — then the subtree held only
this one block and nothing has been written yet), or the walk has
finished inside the subtree: `tR` reflects all writes (confined to the
subtree, invariant restored, the block removed from the live list, the
capacity returned), and above `index` either a `demoteFull` walk is
still pending or everything is done. -/
def FreePost (d : Nat) (t : Tree) (index level left off w : Nat) (T : Tree) : Prop :=
  (liveList t d index left = [(off, w)] ∧ T = combine t index level) ∨
  (∃ tR,
    (∀ n, ¬ inSub d index n → getStatus tR n = getStatus t n) ∧
    Inv tR d index ∧
    (∃ pre suf, liveList t d index left = pre ++ (off, w) :: suf ∧
      liveList tR d index left = pre ++ suf) ∧
    liveList tR d index left ≠ [] ∧
    freeCap tR d index = freeCap t d index + w ∧
    (T = demoteFull tR index level ∨ (T = tR ∧ 0 < freeCap t d index)))

theorem Inv_succ_of_split (t : Tree) (d index : Nat)
    (hs : getStatus t index = NODE_SPLIT)
    (hL : Inv t d (2 * index + 1)) (hR : Inv t d (2 * index + 2))
    (h1 : 0 < freeCap t (d + 1) index) (h2 : freeCap t (d + 1) index < 2 ^ (d + 1)) :
    Inv t (d + 1) index := by
  refine ⟨fun _ => ⟨hL, hR, h1, h2⟩, fun hF => ?_⟩
  rw [hs] at hF
  norm_num [NODE_SPLIT, NODE_FULL] at hF

/-- Lift the free postcondition from the left child to its parent (the
parent being SPLIT or FULL, as on the descent path of `buddy_free`). -/
theorem freePost_step_left (d : Nat) (t T : Tree) (index level left off w : Nat)
    (hIdx : getStatus t index = NODE_SPLIT ∨ getStatus t index = NODE_FULL)
    (hInvP : Inv t (d + 1) index)
    (hw : 0 < w) (hwle : w ≤ 2 ^ d)
    (hpost : FreePost d t (2 * index + 1) (level + 1) left off w T) :
    FreePost (d + 1) t index level left off w T := by
  have hp2 : (0:Nat) < 2 ^ d := by positivity
  have hpow : (2:Nat) ^ (d + 1) = 2 ^ d + 2 ^ d := by ring
  have hInvL : Inv t d (2 * index + 1) := by
    rcases hIdx with h | h
    · exact (hInvP.1 h).1
    · exact (hInvP.2 h).1
  have hInvR : Inv t d (2 * index + 2) := by
    rcases hIdx with h | h
    · exact (hInvP.1 h).2.1
    · exact (hInvP.2 h).2.1
  have hCu : freeCap t (d + 1) index
      = freeCap t d (2 * index + 1) + freeCap t d (2 * index + 2) :=
    freeCap_of_inner t d index hIdx
  have hLu : liveList t (d + 1) index left
      = liveList t d (2 * index + 1) left
        ++ liveList t d (2 * index + 2) (left + 2 ^ d) :=
    liveList_of_inner t d index left hIdx
  rcases hpost with ⟨hsing, hT⟩ | ⟨tR, hframe, hinv, ⟨pre, suf, hl1, hl2⟩, hne, hcap, hT⟩
  · -- the `_combine` walk is still pending at the left child
    have hcapsing : freeCap t d (2 * index + 1) + w = 2 ^ d := by
      have := @capSum t d (2 * index + 1) left hInvL
      rw [hsing] at this
      simpa using this
    by_cases hSib : getStatus t (2 * index + 2) = NODE_UNUSED
    · -- buddy UNUSED: the walk moves up to the parent
      have hcond : ¬ ((2 * index + 1 = 0) ∨
          getStatus t (buddyIdx (2 * index + 1)) ≠ NODE_UNUSED) := by
        rw [buddyIdx_left]
        push_neg
        exact ⟨by omega, hSib⟩
      refine Or.inl ⟨?_, ?_⟩
      · rw [hLu, hsing, liveList_of_unused t d _ _ hSib]
        simp
      · rw [hT, combine_up t _ level hcond, parentIdx_left]
    · -- buddy in use: the walk stops at the left child and demotes above
      have hbne : (2 * index + 1 : Nat) ≠ 0 := by omega
      have hTc : T = demoteFull (setStatus t (2 * index + 1) NODE_UNUSED)
          (2 * index + 1) (level + 1) := by
        rw [hT]
        exact combine_stop t _ _ (Or.inr (by rw [buddyIdx_left]; exact hSib))
      have hs1 : ∀ n, n ≠ 2 * index + 1 →
          getStatus (setStatus t (2 * index + 1) NODE_UNUSED) n = getStatus t n :=
        fun n hn => getStatus_setStatus_ne t _ _ n (by norm_num [NODE_UNUSED]) hn
      have hself1 : getStatus (setStatus t (2 * index + 1) NODE_UNUSED)
          (2 * index + 1) = NODE_UNUSED :=
        getStatus_setStatus_self t _ _ (by norm_num [NODE_UNUSED])
      have hpar1 : getStatus (setStatus t (2 * index + 1) NODE_UNUSED) index
          = getStatus t index := hs1 index (by omega)
      have hfr : ∀ n, inSub d (2 * index + 2) n →
          getStatus (setStatus t (2 * index + 1) NODE_UNUSED) n = getStatus t n := by
        intro n hn
        have := inSub_ge d (2 * index + 2) n hn
        exact hs1 n (by omega)
      have hLr : liveList (setStatus t (2 * index + 1) NODE_UNUSED) d
          (2 * index + 2) (left + 2 ^ d)
          = liveList t d (2 * index + 2) (left + 2 ^ d) := liveList_congr t _ d hfr
      have hCr : freeCap (setStatus t (2 * index + 1) NODE_UNUSED) d (2 * index + 2)
          = freeCap t d (2 * index + 2) := freeCap_congr t _ d hfr
      have hIr : Inv (setStatus t (2 * index + 1) NODE_UNUSED) d (2 * index + 2) :=
        (Inv_congr t _ d hfr).2 hInvR
      have hcapR_lt : freeCap t d (2 * index + 2) < 2 ^ d :=
        cap_lt_of_not_unused t d hInvR hSib
      rcases hIdx with hS | hF
      · -- parent SPLIT: the demote loop stops at once
        have hnotfull : getStatus (setStatus t (2 * index + 1) NODE_UNUSED)
            (parentIdx (2 * index + 1)) ≠ NODE_FULL := by
          rw [parentIdx_left, hpar1, hS]
          norm_num [NODE_SPLIT, NODE_FULL]
        have hTeq : T = setStatus t (2 * index + 1) NODE_UNUSED :=
          hTc.trans (demoteFull_stop _ _ _ hbne hnotfull)
        have hsplitIdx : getStatus (setStatus t (2 * index + 1) NODE_UNUSED) index
            = NODE_SPLIT := hpar1.trans hS
        refine Or.inr ⟨setStatus t (2 * index + 1) NODE_UNUSED, ?_, ?_, ?_, ?_, ?_,
          Or.inr ⟨hTeq, (hInvP.1 hS).2.2.1⟩⟩
        · intro n hn
          refine hs1 n fun he => hn ?_
          rw [he]
          exact inSub_left d index _ (inSub_self d _)
        · refine Inv_succ_of_split _ d index hsplitIdx
            (Inv_of_unused _ d _ hself1) hIr ?_ ?_ <;>
          · rw [freeCap_of_inner _ d index (Or.inl hsplitIdx),
              freeCap_of_unused _ d _ hself1, hCr]
            omega
        · refine ⟨[], liveList t d (2 * index + 2) (left + 2 ^ d), ?_, ?_⟩
          · rw [hLu, hsing]
            simp
          · rw [liveList_of_inner _ d index left (Or.inl hsplitIdx),
              liveList_of_unused _ d _ left hself1, hLr]
        · rw [liveList_of_inner _ d index left (Or.inl hsplitIdx),
            liveList_of_unused _ d _ left hself1, hLr]
          simp only [List.nil_append]
          exact liveList_ne_nil_of_not_unused t d hInvR hSib
        · rw [freeCap_of_inner _ d index (Or.inl hsplitIdx),
            freeCap_of_unused _ d _ hself1, hCr, hCu]
          omega
      · -- parent FULL: the demote loop fires once and keeps walking
        have hc0 := (hInvP.2 hF).2.2
        have hful : getStatus (setStatus t (2 * index + 1) NODE_UNUSED)
            (parentIdx (2 * index + 1)) = NODE_FULL := by
          rw [parentIdx_left, hpar1]
          exact hF
        have hTeq : T = demoteFull
            (setStatus (setStatus t (2 * index + 1) NODE_UNUSED) index NODE_SPLIT)
            index level := by
          rw [hTc, demoteFull_step _ _ _ hbne hful, parentIdx_left]
        have hs2 : ∀ n, n ≠ index → n ≠ 2 * index + 1 →
            getStatus (setStatus (setStatus t (2 * index + 1) NODE_UNUSED) index
              NODE_SPLIT) n = getStatus t n :=
          fun n h1 h2 =>
            (getStatus_setStatus_ne _ index NODE_SPLIT n (by norm_num [NODE_SPLIT]) h1).trans
              (hs1 n h2)
        have hself2 : getStatus (setStatus (setStatus t (2 * index + 1) NODE_UNUSED)
            index NODE_SPLIT) index = NODE_SPLIT :=
          getStatus_setStatus_self _ index _ (by norm_num [NODE_SPLIT])
        have hchild2 : getStatus (setStatus (setStatus t (2 * index + 1) NODE_UNUSED)
            index NODE_SPLIT) (2 * index + 1) = NODE_UNUSED :=
          (getStatus_setStatus_ne _ index _ _ (by norm_num [NODE_SPLIT]) (by omega)).trans
            hself1
        have hfr2 : ∀ n, inSub d (2 * index + 2) n →
            getStatus (setStatus (setStatus t (2 * index + 1) NODE_UNUSED) index
              NODE_SPLIT) n = getStatus t n := by
          intro n hn
          have := inSub_ge d (2 * index + 2) n hn
          exact hs2 n (by omega) (by omega)
        refine Or.inr ⟨setStatus (setStatus t (2 * index + 1) NODE_UNUSED) index
          NODE_SPLIT, ?_, ?_, ?_, ?_, ?_, Or.inl hTeq⟩
        · intro n hn
          refine hs2 n (fun he => hn ?_) (fun he => hn ?_)
          · rw [he]
            exact inSub_self (d + 1) index
          · rw [he]
            exact inSub_left d index _ (inSub_self d _)
        · refine Inv_succ_of_split _ d index hself2
            (Inv_of_unused _ d _ hchild2) ((Inv_congr t _ d hfr2).2 hInvR) ?_ ?_ <;>
          · rw [freeCap_of_inner _ d index (Or.inl hself2),
              freeCap_of_unused _ d _ hchild2, freeCap_congr t _ d hfr2]
            omega
        · refine ⟨[], liveList t d (2 * index + 2) (left + 2 ^ d), ?_, ?_⟩
          · rw [hLu, hsing]
            simp
          · rw [liveList_of_inner _ d index left (Or.inl hself2),
              liveList_of_unused _ d _ left hchild2, liveList_congr t _ d hfr2]
        · rw [liveList_of_inner _ d index left (Or.inl hself2),
            liveList_of_unused _ d _ left hchild2, liveList_congr t _ d hfr2]
          simp only [List.nil_append]
          exact liveList_ne_nil_of_not_unused t d hInvR hSib
        · rw [freeCap_of_inner _ d index (Or.inl hself2),
            freeCap_of_unused _ d _ hchild2, freeCap_congr t _ d hfr2, hCu]
          omega
  · -- the writes already happened inside the left child
    have hparR : getStatus tR index = getStatus t index :=
      hframe index fun hmem => by
        have := inSub_ge d (2 * index + 1) index hmem
        omega
    have hfrR : ∀ n, inSub d (2 * index + 2) n → getStatus tR n = getStatus t n := by
      intro n hn
      exact hframe n fun hmem => inSub_sibling_disjoint index d n hmem hn
    have hLrR : liveList tR d (2 * index + 2) (left + 2 ^ d)
        = liveList t d (2 * index + 2) (left + 2 ^ d) := liveList_congr t tR d hfrR
    have hCrR : freeCap tR d (2 * index + 2) = freeCap t d (2 * index + 2) :=
      freeCap_congr t tR d hfrR
    have hIrR : Inv tR d (2 * index + 2) := (Inv_congr t tR d hfrR).2 hInvR
    have hcapLlt : freeCap tR d (2 * index + 1) < 2 ^ d :=
      cap_lt_of_live_ne_nil tR d hinv hne
    rcases hIdx with hS | hF
    · -- parent SPLIT: a pending demote walk stops here; everything done
      have hTeq : T = tR := by
        rcases hT with hTd | ⟨hTd, _⟩
        · rw [hTd]
          exact demoteFull_stop tR _ _ (by omega)
            (by rw [parentIdx_left, hparR, hS]; norm_num [NODE_SPLIT, NODE_FULL])
        · exact hTd
      have hsR : getStatus tR index = NODE_SPLIT := hparR.trans hS
      refine Or.inr ⟨tR, ?_, ?_, ?_, ?_, ?_, Or.inr ⟨hTeq, (hInvP.1 hS).2.2.1⟩⟩
      · intro n hn
        exact hframe n fun hmem => hn (inSub_left d index n hmem)
      · refine Inv_succ_of_split tR d index hsR hinv hIrR ?_ ?_ <;>
        · rw [freeCap_of_inner tR d index (Or.inl hsR), hCrR]
          have := freeCap_le t d (2 * index + 2)
          omega
      · refine ⟨pre, suf ++ liveList t d (2 * index + 2) (left + 2 ^ d), ?_, ?_⟩
        · rw [hLu, hl1]
          simp
        · rw [liveList_of_inner tR d index left (Or.inl hsR), hl2, hLrR]
          simp
      · rw [liveList_of_inner tR d index left (Or.inl hsR), hl2]
        intro hnil
        rw [List.append_eq_nil] at hnil
        exact hne (hl2.trans hnil.1)
      · rw [freeCap_of_inner tR d index (Or.inl hsR), hCrR, hcap, hCu]
        omega
    · -- parent FULL
      have hc0 := (hInvP.2 hF).2.2
      rcases hT with hTd | ⟨hTd, hcpos⟩
      · -- the pending demote walk demotes the FULL parent and continues
        have hfulR : getStatus tR (parentIdx (2 * index + 1)) = NODE_FULL := by
          rw [parentIdx_left, hparR]
          exact hF
        have hTeq : T = demoteFull (setStatus tR index NODE_SPLIT) index level := by
          rw [hTd, demoteFull_step tR _ level (by omega) hfulR, parentIdx_left]
        have hsets : ∀ n, n ≠ index →
            getStatus (setStatus tR index NODE_SPLIT) n = getStatus tR n :=
          fun n hn => getStatus_setStatus_ne tR index NODE_SPLIT n
            (by norm_num [NODE_SPLIT]) hn
        have hselfs : getStatus (setStatus tR index NODE_SPLIT) index = NODE_SPLIT :=
          getStatus_setStatus_self tR index NODE_SPLIT (by norm_num [NODE_SPLIT])
        have hfL : ∀ n, inSub d (2 * index + 1) n →
            getStatus (setStatus tR index NODE_SPLIT) n = getStatus tR n := by
          intro n hn
          have := inSub_ge d (2 * index + 1) n hn
          exact hsets n (by omega)
        have hfR2 : ∀ n, inSub d (2 * index + 2) n →
            getStatus (setStatus tR index NODE_SPLIT) n = getStatus t n := by
          intro n hn
          have := inSub_ge d (2 * index + 2) n hn
          exact (hsets n (by omega)).trans (hfrR n hn)
        refine Or.inr ⟨setStatus tR index NODE_SPLIT, ?_, ?_, ?_, ?_, ?_, Or.inl hTeq⟩
        · intro n hn
          refine (hsets n fun he => hn ?_).trans
            (hframe n fun hmem => hn (inSub_left d index n hmem))
          rw [he]
          exact inSub_self (d + 1) index
        · refine Inv_succ_of_split _ d index hselfs ((Inv_congr tR _ d hfL).2 hinv)
            ((Inv_congr t _ d hfR2).2 hInvR) ?_ ?_ <;>
          · rw [freeCap_of_inner _ d index (Or.inl hselfs), freeCap_congr tR _ d hfL,
              freeCap_congr t _ d hfR2, hcap]
            omega
        · refine ⟨pre, suf ++ liveList t d (2 * index + 2) (left + 2 ^ d), ?_, ?_⟩
          · rw [hLu, hl1]
            simp
          · rw [liveList_of_inner _ d index left (Or.inl hselfs),
              liveList_congr tR _ d hfL, hl2, liveList_congr t _ d hfR2]
            simp
        · rw [liveList_of_inner _ d index left (Or.inl hselfs),
            liveList_congr tR _ d hfL, hl2]
          intro hnil
          rw [List.append_eq_nil] at hnil
          exact hne (hl2.trans hnil.1)
        · rw [freeCap_of_inner _ d index (Or.inl hselfs), freeCap_congr tR _ d hfL,
            freeCap_congr t _ d hfR2, hcap, hCu]
          omega
      · -- a finished walk below a FULL parent is impossible
        exfalso
        rw [hCu] at hc0
        omega

/-- Lift the free postcondition from the right child to its parent. -/
theorem freePost_step_right (d : Nat) (t T : Tree) (index level left off w : Nat)
    (hIdx : getStatus t index = NODE_SPLIT ∨ getStatus t index = NODE_FULL)
    (hInvP : Inv t (d + 1) index)
    (hw : 0 < w) (hwle : w ≤ 2 ^ d)
    (hpost : FreePost d t (2 * index + 2) (level + 1) (left + 2 ^ d) off w T) :
    FreePost (d + 1) t index level left off w T := by
  have hp2 : (0:Nat) < 2 ^ d := by positivity
  have hpow : (2:Nat) ^ (d + 1) = 2 ^ d + 2 ^ d := by ring
  have hInvL : Inv t d (2 * index + 1) := by
    rcases hIdx with h | h
    · exact (hInvP.1 h).1
    · exact (hInvP.2 h).1
  have hInvR : Inv t d (2 * index + 2) := by
    rcases hIdx with h | h
    · exact (hInvP.1 h).2.1
    · exact (hInvP.2 h).2.1
  have hCu : freeCap t (d + 1) index
      = freeCap t d (2 * index + 1) + freeCap t d (2 * index + 2) :=
    freeCap_of_inner t d index hIdx
  have hLu : liveList t (d + 1) index left
      = liveList t d (2 * index + 1) left
        ++ liveList t d (2 * index + 2) (left + 2 ^ d) :=
    liveList_of_inner t d index left hIdx
  rcases hpost with ⟨hsing, hT⟩ | ⟨tR, hframe, hinv, ⟨pre, suf, hl1, hl2⟩, hne, hcap, hT⟩
  · -- the `_combine` walk is still pending at the right child
    have hcapsing : freeCap t d (2 * index + 2) + w = 2 ^ d := by
      have := @capSum t d (2 * index + 2) (left + 2 ^ d) hInvR
      rw [hsing] at this
      simpa using this
    by_cases hSib : getStatus t (2 * index + 1) = NODE_UNUSED
    · -- buddy UNUSED: the walk moves up to the parent
      have hcond : ¬ ((2 * index + 2 = 0) ∨
          getStatus t (buddyIdx (2 * index + 2)) ≠ NODE_UNUSED) := by
        rw [buddyIdx_right]
        push_neg
        exact ⟨by omega, hSib⟩
      refine Or.inl ⟨?_, ?_⟩
      · rw [hLu, hsing, liveList_of_unused t d _ _ hSib]
        simp
      · rw [hT, combine_up t _ level hcond, parentIdx_right]
    · -- buddy in use: the walk stops at the right child and demotes above
      have hbne : (2 * index + 2 : Nat) ≠ 0 := by omega
      have hTc : T = demoteFull (setStatus t (2 * index + 2) NODE_UNUSED)
          (2 * index + 2) (level + 1) := by
        rw [hT]
        exact combine_stop t _ _ (Or.inr (by rw [buddyIdx_right]; exact hSib))
      have hs1 : ∀ n, n ≠ 2 * index + 2 →
          getStatus (setStatus t (2 * index + 2) NODE_UNUSED) n = getStatus t n :=
        fun n hn => getStatus_setStatus_ne t _ _ n (by norm_num [NODE_UNUSED]) hn
      have hself1 : getStatus (setStatus t (2 * index + 2) NODE_UNUSED)
          (2 * index + 2) = NODE_UNUSED :=
        getStatus_setStatus_self t _ _ (by norm_num [NODE_UNUSED])
      have hpar1 : getStatus (setStatus t (2 * index + 2) NODE_UNUSED) index
          = getStatus t index := hs1 index (by omega)
      have hfr : ∀ n, inSub d (2 * index + 1) n →
          getStatus (setStatus t (2 * index + 2) NODE_UNUSED) n = getStatus t n := by
        intro n hn
        refine hs1 n fun he => ?_
        rw [he] at hn
        exact buddy_not_inSub_left index d hn
      have hLr : liveList (setStatus t (2 * index + 2) NODE_UNUSED) d
          (2 * index + 1) left
          = liveList t d (2 * index + 1) left := liveList_congr t _ d hfr
      have hCr : freeCap (setStatus t (2 * index + 2) NODE_UNUSED) d (2 * index + 1)
          = freeCap t d (2 * index + 1) := freeCap_congr t _ d hfr
      have hIr : Inv (setStatus t (2 * index + 2) NODE_UNUSED) d (2 * index + 1) :=
        (Inv_congr t _ d hfr).2 hInvL
      have hcapL_lt : freeCap t d (2 * index + 1) < 2 ^ d :=
        cap_lt_of_not_unused t d hInvL hSib
      rcases hIdx with hS | hF
      · -- parent SPLIT: the demote loop stops at once
        have hnotfull : getStatus (setStatus t (2 * index + 2) NODE_UNUSED)
            (parentIdx (2 * index + 2)) ≠ NODE_FULL := by
          rw [parentIdx_right, hpar1, hS]
          norm_num [NODE_SPLIT, NODE_FULL]
        have hTeq : T = setStatus t (2 * index + 2) NODE_UNUSED :=
          hTc.trans (demoteFull_stop _ _ _ hbne hnotfull)
        have hsplitIdx : getStatus (setStatus t (2 * index + 2) NODE_UNUSED) index
            = NODE_SPLIT := hpar1.trans hS
        refine Or.inr ⟨setStatus t (2 * index + 2) NODE_UNUSED, ?_, ?_, ?_, ?_, ?_,
          Or.inr ⟨hTeq, (hInvP.1 hS).2.2.1⟩⟩
        · intro n hn
          refine hs1 n fun he => hn ?_
          rw [he]
          exact inSub_right d index _ (inSub_self d _)
        · refine Inv_succ_of_split _ d index hsplitIdx hIr
            (Inv_of_unused _ d _ hself1) ?_ ?_ <;>
          · rw [freeCap_of_inner _ d index (Or.inl hsplitIdx),
              freeCap_of_unused _ d _ hself1, hCr]
            omega
        · refine ⟨liveList t d (2 * index + 1) left, [], ?_, ?_⟩
          · rw [hLu, hsing]
          · rw [liveList_of_inner _ d index left (Or.inl hsplitIdx),
              liveList_of_unused _ d _ (left + 2 ^ d) hself1, hLr]
        · rw [liveList_of_inner _ d index left (Or.inl hsplitIdx),
            liveList_of_unused _ d _ (left + 2 ^ d) hself1, hLr]
          simp only [List.append_nil]
          exact liveList_ne_nil_of_not_unused t d hInvL hSib
        · rw [freeCap_of_inner _ d index (Or.inl hsplitIdx),
            freeCap_of_unused _ d _ hself1, hCr, hCu]
          omega
      · -- parent FULL: the demote loop fires once and keeps walking
        have hc0 := (hInvP.2 hF).2.2
        have hful : getStatus (setStatus t (2 * index + 2) NODE_UNUSED)
            (parentIdx (2 * index + 2)) = NODE_FULL := by
          rw [parentIdx_right, hpar1]
          exact hF
        have hTeq : T = demoteFull
            (setStatus (setStatus t (2 * index + 2) NODE_UNUSED) index NODE_SPLIT)
            index level := by
          rw [hTc, demoteFull_step _ _ _ hbne hful, parentIdx_right]
        have hs2 : ∀ n, n ≠ index → n ≠ 2 * index + 2 →
            getStatus (setStatus (setStatus t (2 * index + 2) NODE_UNUSED) index
              NODE_SPLIT) n = getStatus t n :=
          fun n h1 h2 =>
            (getStatus_setStatus_ne _ index NODE_SPLIT n (by norm_num [NODE_SPLIT]) h1).trans
              (hs1 n h2)
        have hself2 : getStatus (setStatus (setStatus t (2 * index + 2) NODE_UNUSED)
            index NODE_SPLIT) index = NODE_SPLIT :=
          getStatus_setStatus_self _ index _ (by norm_num [NODE_SPLIT])
        have hchild2 : getStatus (setStatus (setStatus t (2 * index + 2) NODE_UNUSED)
            index NODE_SPLIT) (2 * index + 2) = NODE_UNUSED :=
          (getStatus_setStatus_ne _ index _ _ (by norm_num [NODE_SPLIT]) (by omega)).trans
            hself1
        have hfr2 : ∀ n, inSub d (2 * index + 1) n →
            getStatus (setStatus (setStatus t (2 * index + 2) NODE_UNUSED) index
              NODE_SPLIT) n = getStatus t n := by
          intro n hn
          have := inSub_ge d (2 * index + 1) n hn
          refine hs2 n (by omega) fun he => ?_
          rw [he] at hn
          exact buddy_not_inSub_left index d hn
        refine Or.inr ⟨setStatus (setStatus t (2 * index + 2) NODE_UNUSED) index
          NODE_SPLIT, ?_, ?_, ?_, ?_, ?_, Or.inl hTeq⟩
        · intro n hn
          refine hs2 n (fun he => hn ?_) (fun he => hn ?_)
          · rw [he]
            exact inSub_self (d + 1) index
          · rw [he]
            exact inSub_right d index _ (inSub_self d _)
        · refine Inv_succ_of_split _ d index hself2 ((Inv_congr t _ d hfr2).2 hInvL)
            (Inv_of_unused _ d _ hchild2) ?_ ?_ <;>
          · rw [freeCap_of_inner _ d index (Or.inl hself2),
              freeCap_of_unused _ d _ hchild2, freeCap_congr t _ d hfr2]
            omega
        · refine ⟨liveList t d (2 * index + 1) left, [], ?_, ?_⟩
          · rw [hLu, hsing]
          · rw [liveList_of_inner _ d index left (Or.inl hself2),
              liveList_of_unused _ d _ (left + 2 ^ d) hchild2, liveList_congr t _ d hfr2]
        · rw [liveList_of_inner _ d index left (Or.inl hself2),
            liveList_of_unused _ d _ (left + 2 ^ d) hchild2, liveList_congr t _ d hfr2]
          simp only [List.append_nil]
          exact liveList_ne_nil_of_not_unused t d hInvL hSib
        · rw [freeCap_of_inner _ d index (Or.inl hself2),
            freeCap_of_unused _ d _ hchild2, freeCap_congr t _ d hfr2, hCu]
          omega
  · -- the writes already happened inside the right child
    have hparR : getStatus tR index = getStatus t index :=
      hframe index fun hmem => by
        have := inSub_ge d (2 * index + 2) index hmem
        omega
    have hfrR : ∀ n, inSub d (2 * index + 1) n → getStatus tR n = getStatus t n := by
      intro n hn
      exact hframe n fun hmem => inSub_sibling_disjoint index d n hn hmem
    have hLrR : liveList tR d (2 * index + 1) left
        = liveList t d (2 * index + 1) left := liveList_congr t tR d hfrR
    have hCrR : freeCap tR d (2 * index + 1) = freeCap t d (2 * index + 1) :=
      freeCap_congr t tR d hfrR
    have hIrR : Inv tR d (2 * index + 1) := (Inv_congr t tR d hfrR).2 hInvL
    have hcapRlt : freeCap tR d (2 * index + 2) < 2 ^ d :=
      cap_lt_of_live_ne_nil tR d hinv hne
    rcases hIdx with hS | hF
    · -- parent SPLIT: a pending demote walk stops here; everything done
      have hTeq : T = tR := by
        rcases hT with hTd | ⟨hTd, _⟩
        · rw [hTd]
          exact demoteFull_stop tR _ _ (by omega)
            (by rw [parentIdx_right, hparR, hS]; norm_num [NODE_SPLIT, NODE_FULL])
        · exact hTd
      have hsR : getStatus tR index = NODE_SPLIT := hparR.trans hS
      refine Or.inr ⟨tR, ?_, ?_, ?_, ?_, ?_, Or.inr ⟨hTeq, (hInvP.1 hS).2.2.1⟩⟩
      · intro n hn
        exact hframe n fun hmem => hn (inSub_right d index n hmem)
      · refine Inv_succ_of_split tR d index hsR hIrR hinv ?_ ?_ <;>
        · rw [freeCap_of_inner tR d index (Or.inl hsR), hCrR]
          have := freeCap_le t d (2 * index + 1)
          omega
      · refine ⟨liveList t d (2 * index + 1) left ++ pre, suf, ?_, ?_⟩
        · rw [hLu, hl1]
          simp
        · rw [liveList_of_inner tR d index left (Or.inl hsR), hl2, hLrR]
          simp
      · rw [liveList_of_inner tR d index left (Or.inl hsR), hl2]
        intro hnil
        simp only [List.append_eq_nil] at hnil
        exact hne (hl2.trans (by rw [hnil.2.1, hnil.2.2]; simp))
      · rw [freeCap_of_inner tR d index (Or.inl hsR), hCrR, hcap, hCu]
        omega
    · -- parent FULL
      have hc0 := (hInvP.2 hF).2.2
      rcases hT with hTd | ⟨hTd, hcpos⟩
      · -- the pending demote walk demotes the FULL parent and continues
        have hfulR : getStatus tR (parentIdx (2 * index + 2)) = NODE_FULL := by
          rw [parentIdx_right, hparR]
          exact hF
        have hTeq : T = demoteFull (setStatus tR index NODE_SPLIT) index level := by
          rw [hTd, demoteFull_step tR _ level (by omega) hfulR, parentIdx_right]
        have hsets : ∀ n, n ≠ index →
            getStatus (setStatus tR index NODE_SPLIT) n = getStatus tR n :=
          fun n hn => getStatus_setStatus_ne tR index NODE_SPLIT n
            (by norm_num [NODE_SPLIT]) hn
        have hselfs : getStatus (setStatus tR index NODE_SPLIT) index = NODE_SPLIT :=
          getStatus_setStatus_self tR index NODE_SPLIT (by norm_num [NODE_SPLIT])
        have hfR : ∀ n, inSub d (2 * index + 2) n →
            getStatus (setStatus tR index NODE_SPLIT) n = getStatus tR n := by
          intro n hn
          have := inSub_ge d (2 * index + 2) n hn
          exact hsets n (by omega)
        have hfL2 : ∀ n, inSub d (2 * index + 1) n →
            getStatus (setStatus tR index NODE_SPLIT) n = getStatus t n := by
          intro n hn
          have := inSub_ge d (2 * index + 1) n hn
          exact (hsets n (by omega)).trans (hfrR n hn)
        refine Or.inr ⟨setStatus tR index NODE_SPLIT, ?_, ?_, ?_, ?_, ?_, Or.inl hTeq⟩
        · intro n hn
          refine (hsets n fun he => hn ?_).trans
            (hframe n fun hmem => hn (inSub_right d index n hmem))
          rw [he]
          exact inSub_self (d + 1) index
        · refine Inv_succ_of_split _ d index hselfs ((Inv_congr t _ d hfL2).2 hInvL)
            ((Inv_congr tR _ d hfR).2 hinv) ?_ ?_ <;>
          · rw [freeCap_of_inner _ d index (Or.inl hselfs), freeCap_congr tR _ d hfR,
              freeCap_congr t _ d hfL2, hcap]
            omega
        · refine ⟨liveList t d (2 * index + 1) left ++ pre, suf, ?_, ?_⟩
          · rw [hLu, hl1]
            simp
          · rw [liveList_of_inner _ d index left (Or.inl hselfs),
              liveList_congr tR _ d hfR, hl2, liveList_congr t _ d hfL2]
            simp
        · rw [liveList_of_inner _ d index left (Or.inl hselfs),
            liveList_congr tR _ d hfR, hl2]
          intro hnil
          simp only [List.append_eq_nil] at hnil
          exact hne (hl2.trans (by rw [hnil.2.1, hnil.2.2]; simp))
        · rw [freeCap_of_inner _ d index (Or.inl hselfs), freeCap_congr tR _ d hfR,
            freeCap_congr t _ d hfL2, hcap, hCu]
          omega
      · -- a finished walk below a FULL parent is impossible
        exfalso
        rw [hCu] at hc0
        omega

/-- Freeing a live block: the descent of `buddy_free` reaches the USED
node, asserts nothing, and the combined `_combine`/`demoteFull` walk
satisfies the free postcondition. -/
theorem freeAt_valid (d : Nat) :
    ∀ t off left index level w,
      Inv t d index →
      (off, w) ∈ liveList t d index left →
      ∃ T, freeAt t off left index level d = some T ∧
        FreePost d t index level left off w T := by
  induction d with
  | zero =>
    intro t off left index level w hInv hmem
    by_cases hU : getStatus t index = NODE_USED
    · rw [liveList_of_used t 0 index left hU] at hmem
      simp at hmem
      refine ⟨combine t index level, ?_, ?_⟩
      · simp only [freeAt]
        rw [if_pos hU, if_pos hmem.1]
      · exact Or.inl ⟨by rw [liveList_of_used t 0 index left hU]; simp [hmem.1, hmem.2], rfl⟩
    · by_cases h0 : getStatus t index = NODE_UNUSED
      · rw [liveList_of_unused t 0 index left h0] at hmem
        simp at hmem
      · rcases status_cases t index with h | h | h | h
        · exact absurd h h0
        · exact absurd h hU
        · exact absurd h hInv.1
        · exact absurd h hInv.2
  | succ d ih =>
    intro t off left index level w hInv hmem
    by_cases hU : getStatus t index = NODE_USED
    · rw [liveList_of_used t (d + 1) index left hU] at hmem
      simp at hmem
      refine ⟨combine t index level, ?_, ?_⟩
      · simp only [freeAt]
        rw [if_pos hU, if_pos hmem.1]
      · exact Or.inl ⟨by rw [liveList_of_used t (d + 1) index left hU]; simp [hmem.1, hmem.2],
          rfl⟩
    · by_cases h0 : getStatus t index = NODE_UNUSED
      · rw [liveList_of_unused t (d + 1) index left h0] at hmem
        simp at hmem
      · have hsf : getStatus t index = NODE_SPLIT ∨ getStatus t index = NODE_FULL := by
          rcases status_cases t index with h | h | h | h
          · exact absurd h h0
          · exact absurd h hU
          · exact Or.inl h
          · exact Or.inr h
        have hInvL : Inv t d (2 * index + 1) := by
          rcases hsf with h | h
          · exact (hInv.1 h).1
          · exact (hInv.2 h).1
        have hInvR : Inv t d (2 * index + 2) := by
          rcases hsf with h | h
          · exact (hInv.1 h).2.1
          · exact (hInv.2 h).2.1
        rw [liveList_of_inner t d index left hsf, List.mem_append] at hmem
        by_cases hside : off < left + 2 ^ d
        · have hmemL : (off, w) ∈ liveList t d (2 * index + 1) left := by
            rcases hmem with h | h
            · exact h
            · have := liveList_mem_bounds t d (off, w) h
              simp at this
              omega
          obtain ⟨T, hfa, hpost⟩ := ih t off left (2 * index + 1) (level + 1) w hInvL hmemL
          have hb := liveList_mem_bounds t d (off, w) hmemL
          refine ⟨T, ?_,
            freePost_step_left d t T index level left off w hsf hInv hb.2.2.1 hb.2.2.2 hpost⟩
          simp only [freeAt]
          rw [if_neg hU, if_neg h0, if_pos hside]
          exact hfa
        · have hmemR : (off, w) ∈ liveList t d (2 * index + 2) (left + 2 ^ d) := by
            rcases hmem with h | h
            · have := liveList_mem_bounds t d (off, w) h
              simp at this
              omega
            · exact h
          obtain ⟨T, hfa, hpost⟩ :=
            ih t off (left + 2 ^ d) (2 * index + 2) (level + 1) w hInvR hmemR
          have hb := liveList_mem_bounds t d (off, w) hmemR
          refine ⟨T, ?_,
            freePost_step_right d t T index level left off w hsf hInv hb.2.2.1 hb.2.2.2 hpost⟩
          simp only [freeAt]
          rw [if_neg hU, if_neg h0, if_neg hside]
          exact hfa

/-- `buddy_free` on a pointer that is not the start of a live block
hits a failing assertion (modelled as `none`). -/
theorem buddy_free_invalid (min_level lvl : Nat) (t : Tree) (b : Nat)
    (h : (b >>> min_level) ∉ (liveList t lvl 0 0).map Prod.fst) :
    buddy_free min_level lvl t b = none := by
  simp only [buddy_free]
  by_cases hg : b >>> min_level < 2 ^ lvl
  · rw [if_pos hg]
    exact freeAt_invalid lvl t _ 0 0 0 h
  · rw [if_neg hg]

/-- `buddy_free` on the start of a live block succeeds: no assertion
fires, the invariant is restored, and exactly that block disappears
from the live list (all other blocks and the list order untouched). -/
theorem buddy_free_spec (min_level lvl : Nat) (t : Tree) (b w : Nat)
    (hInv : Inv t lvl 0)
    (hmem : (b >>> min_level, w) ∈ liveList t lvl 0 0) :
    ∃ T, buddy_free min_level lvl t b = some T ∧
      Inv T lvl 0 ∧
      ∃ pre suf, liveList t lvl 0 0 = pre ++ (b >>> min_level, w) :: suf ∧
        liveList T lvl 0 0 = pre ++ suf := by
  have hb := liveList_mem_bounds t lvl (b >>> min_level, w) hmem
  simp at hb
  have hg : b >>> min_level < 2 ^ lvl := by omega
  obtain ⟨T, hfa, hpost⟩ := freeAt_valid lvl t (b >>> min_level) 0 0 0 w hInv hmem
  refine ⟨T, ?_, ?_⟩
  · simp only [buddy_free]
    rw [if_pos hg]
    exact hfa
  · rcases hpost with ⟨hsing, hT⟩ | ⟨tR, _, hinv, ⟨pre, suf, hl1, hl2⟩, _, _, hT⟩
    · -- the merge walk reached the root: the whole pool is free again
      have hTeq : T = setStatus t 0 NODE_UNUSED := by
        rw [hT, combine_stop t 0 0 (Or.inl rfl), demoteFull_root]
      have hun : getStatus (setStatus t 0 NODE_UNUSED) 0 = NODE_UNUSED :=
        getStatus_setStatus_self t 0 NODE_UNUSED (by norm_num [NODE_UNUSED])
      refine ⟨by rw [hTeq]; exact Inv_of_unused _ lvl 0 hun, [], [], ?_, ?_⟩
      · rw [hsing]
        simp
      · rw [hTeq, liveList_of_unused _ lvl 0 0 hun]
        simp
    · -- the walk finished strictly below the root
      have hTeq : T = tR := by
        rcases hT with hTd | ⟨hTd, _⟩
        · rw [hTd, demoteFull_root]
        · exact hTd
      exact ⟨hTeq ▸ hinv, pre, suf, hl1, hTeq ▸ hl2⟩

/-! ## The freshly constructed pool -/

/-- After `buddy_from_buffer` reserves the metadata block on the
zeroed tree, the invariant holds and exactly one block — the metadata
block, at unit offset 0 — is live. -/
theorem freshTree_spec (min_level lvl : Nat) (h1 : 1 ≤ lvl)
    (hlm : lvl + min_level ≤ 30) :
    Inv (freshTree min_level lvl) lvl 0 ∧
    liveList (freshTree min_level lvl) lvl 0 0
      = [(0, allocUnit min_level (2 ^ (lvl - 1)))] := by
  have hzero : getStatus zeroTree 0 = NODE_UNUSED := rfl
  have hInv0 : Inv zeroTree lvl 0 := Inv_of_unused zeroTree lvl 0 hzero
  have hs : 2 ^ (lvl - 1) ≤ 2 ^ 30 :=
    Nat.pow_le_pow_right (by norm_num) (by omega)
  obtain ⟨σ, hσ, hexp, hsle, hmle, hub⟩ := allocUnit_spec min_level (2 ^ (lvl - 1)) hs
  have h2l : 2 * 2 ^ (lvl - 1) = 2 ^ lvl := by
    rw [← pow_succ']
    congr 1
    omega
  have hσl : σ ≤ lvl := by
    rcases hub with h | h
    · rw [hexp, h2l] at h
      have := (Nat.pow_lt_pow_iff_right (show 1 < 2 by norm_num)).1 h
      omega
    · rw [hexp] at h
      have := Nat.pow_right_injective (show 2 ≤ 2 by norm_num) h
      omega
  have hguard : ¬ (2 ^ lvl < allocUnit min_level (2 ^ (lvl - 1))) := by
    rw [hσ]
    exact not_lt.2 (Nat.pow_le_pow_right (by norm_num) hσl)
  obtain ⟨b, hb⟩ : ∃ b, (buddy_alloc min_level lvl zeroTree (2 ^ (lvl - 1))).1 = some b := by
    have hiss := allocAt_unused_isSome min_level lvl σ lvl zeroTree 0 0 hσl hzero
    rw [← Option.isSome_iff_exists]
    simp only [buddy_alloc, hσ, if_neg (hσ ▸ hguard)]
    exact hiss
  have hres : buddy_alloc min_level lvl zeroTree (2 ^ (lvl - 1))
      = (some b, freshTree min_level lvl) := by
    rw [freshTree, ← hb]
  obtain ⟨hinvT, ⟨pre, suf, hl1, hl2⟩, _, _, hoff0⟩ :=
    buddy_alloc_some_spec min_level lvl zeroTree (2 ^ (lvl - 1)) b
      (freshTree min_level lvl) hs hInv0 hres
  have hnil : liveList zeroTree lvl 0 0 = [] := liveList_of_unused zeroTree lvl 0 0 hzero
  rw [hnil] at hl1
  obtain ⟨hp, hsf⟩ := List.append_eq_nil.1 hl1.symm
  rw [hp, hsf, hoff0 hnil] at hl2
  exact ⟨hinvT, hl2⟩

/-- The live list never holds duplicate entries (offsets strictly
increase along it). -/
theorem liveList_nodup (t : Tree) (d : Nat) {index left : Nat} :
    (liveList t d index left).Nodup := by
  have hs := @liveList_sorted t d index left
  refine List.Pairwise.imp_of_mem ?_ hs
  intro a b ha hb hab
  have hbb := liveList_mem_bounds t d b hb
  intro he
  rw [he] at hab
  omega

/-- A list with a member is a permutation of that member consed onto
the list with the member erased. -/
theorem cons_perm_erase (gl : List (Nat × Nat)) (p : Nat × Nat) (h : p ∈ gl) :
    List.Perm gl (p :: gl.erase p) := by
  induction gl with
  | nil => cases h
  | cons q gl ih =>
    by_cases hq : q = p
    · subst hq
      rw [List.erase_cons_head]
    · rw [List.erase_cons_tail (by simp [hq])]
      have hp : p ∈ gl := by
        rcases List.mem_cons.1 h with he | hm
        · exact absurd he.symm hq
        · exact hm
      exact (List.Perm.cons q (ih hp)).trans (List.Perm.swap p q _)

/-- Master invariant of all reachable allocator states: the structural
invariant holds, and the live blocks are exactly the metadata block
(at unit offset 0) together with the ghost list of caller
allocations. -/
theorem Reach_master (min_level lvl : Nat) (h1 : 1 ≤ lvl)
    (hlm : lvl + min_level ≤ 30) :
    ∀ t gl, Reach min_level lvl t gl →
      Inv t lvl 0 ∧
      List.Perm (liveList t lvl 0 0)
        ((0, allocUnit min_level (2 ^ (lvl - 1))) :: gl) := by
  intro t gl hreach
  induction hreach with
  | init =>
    obtain ⟨hInv, hL⟩ := freshTree_spec min_level lvl h1 hlm
    exact ⟨hInv, by rw [hL]⟩
  | alloc t gl s b t' _ hs hres ih =>
    obtain ⟨hInv, hperm⟩ := ih
    obtain ⟨hInv', ⟨pre, suf, hl1, hl2⟩, _, _, _⟩ :=
      buddy_alloc_some_spec min_level lvl t s b t' hs hInv hres
    refine ⟨hInv', ?_⟩
    rw [hl2]
    refine List.Perm.trans List.perm_middle ?_
    refine List.Perm.trans (List.Perm.cons _ (hl1 ▸ hperm)) ?_
    exact List.Perm.swap _ _ gl
  | free t gl u w b t' _ hmem hbu hfree ih =>
    obtain ⟨hInv, hperm⟩ := ih
    have hmemL : (u, w) ∈ liveList t lvl 0 0 :=
      hperm.mem_iff.2 (List.mem_cons_of_mem _ hmem)
    obtain ⟨T, hfa, hinvT, pre, suf, hl1, hl2⟩ :=
      buddy_free_spec min_level lvl t b w hInv (by rw [hbu]; exact hmemL)
    have hTt : T = t' := by
      rw [hfa] at hfree
      exact Option.some.inj hfree
    subst hTt
    rw [hbu] at hl1
    refine ⟨hinvT, ?_⟩
    have hmid : List.Perm ((u, w) :: (pre ++ suf))
        ((0, allocUnit min_level (2 ^ (lvl - 1))) :: gl) := by
      refine List.Perm.trans ?_ hperm
      rw [hl1]
      exact List.perm_middle.symm
    have hglperm : List.Perm gl ((u, w) :: gl.erase (u, w)) :=
      cons_perm_erase gl (u, w) hmem
    have h2 : List.Perm ((0, allocUnit min_level (2 ^ (lvl - 1))) :: gl)
        ((u, w) :: (0, allocUnit min_level (2 ^ (lvl - 1))) :: gl.erase (u, w)) :=
      (List.Perm.cons _ hglperm).trans (List.Perm.swap _ _ _)
    rw [hl2]
    exact (hmid.trans h2).cons_inv

/-! ## Further `buddy_alloc` facts: capacity obligations -/

/-- A successful allocation needs at least its size in free capacity. -/
theorem allocAt_some_cap (min_level lvl σ : Nat) :
    ∀ d t index level off T, σ ≤ d → Inv t d index →
      allocAt min_level lvl t (2 ^ σ) index level d = (some off, T) →
      2 ^ σ ≤ freeCap t d index := by
  intro d
  induction d with
  | zero =>
    intro t index level off T hσ hInv hres
    have hσ0 : σ = 0 := by omega
    subst hσ0
    simp only [allocAt, pow_zero, if_true] at hres
    by_cases hU : getStatus t index = NODE_UNUSED
    · rw [freeCap_of_unused t 0 index hU]
    · rw [if_neg hU] at hres
      simp at hres
  | succ d ih =>
    intro t index level off T hσ hInv hres
    by_cases hsz : (2 : Nat) ^ σ = 2 ^ (d + 1)
    · simp only [allocAt] at hres
      rw [if_pos hsz] at hres
      by_cases hU : getStatus t index = NODE_UNUSED
      · rw [freeCap_of_unused t (d + 1) index hU, hsz]
      · rw [if_neg hU] at hres
        simp at hres
    · have hσd : σ ≤ d := by
        have h1 : σ ≠ d + 1 := fun h => hsz (by rw [h])
        omega
      simp only [allocAt, if_neg hsz] at hres
      by_cases hUF : getStatus t index = NODE_USED ∨ getStatus t index = NODE_FULL
      · rw [if_pos hUF] at hres
        simp at hres
      · rw [if_neg hUF] at hres
        by_cases hU : getStatus t index = NODE_UNUSED
        · rw [freeCap_of_unused t (d + 1) index hU]
          exact Nat.pow_le_pow_right (by norm_num) (by omega)
        · have hS : getStatus t index = NODE_SPLIT := by
            rcases status_cases t index with h | h | h | h
            · exact absurd h hU
            · exact absurd (Or.inl h) hUF
            · exact h
            · exact absurd (Or.inr h) hUF
          rw [if_neg hU] at hres
          obtain ⟨hL, hR, _, _⟩ := hInv.1 hS
          rw [freeCap_of_inner t d index (Or.inl hS)]
          rcases hlft : allocAt min_level lvl t (2 ^ σ) (2 * index + 1)
              (level + 1) d with ⟨o, t2⟩
          rw [hlft] at hres
          cases o with
          | some ol =>
            simp at hres
            have := ih t (2 * index + 1) (level + 1) ol t2 hσd hL
              (by rw [hlft, hres.1, hres.2])
            omega
          | none =>
            have ht2 : t2 = t := by
              have := allocAt_none_eq min_level lvl σ d t (2 * index + 1)
                (level + 1) hσd (by rw [hlft])
              rwa [hlft] at this
            rw [ht2] at hres
            have := ih t (2 * index + 2) (level + 1) off T hσd hR hres
            omega

/-- A minimum-size request succeeds whenever any capacity is free. -/
theorem allocAt_one_isSome (min_level lvl : Nat) :
    ∀ d t index level, Inv t d index → 0 < freeCap t d index →
      (allocAt min_level lvl t 1 index level d).1.isSome = true := by
  intro d
  induction d with
  | zero =>
    intro t index level hInv hcap
    have hU : getStatus t index = NODE_UNUSED := by
      rcases status_cases t index with h | h | h | h
      · exact h
      · rw [freeCap_of_used t 0 index h] at hcap
        omega
      · exact absurd h hInv.1
      · exact absurd h hInv.2
    simp only [allocAt, pow_zero, if_true, if_pos hU]
    rfl
  | succ d ih =>
    intro t index level hInv hcap
    have hsz : (1 : Nat) ≠ 2 ^ (d + 1) := by
      have : (2 : Nat) ≤ 2 ^ (d + 1) := by
        calc (2 : Nat) = 2 ^ 1 := by norm_num
        _ ≤ 2 ^ (d + 1) := Nat.pow_le_pow_right (by norm_num) (by omega)
      omega
    simp only [allocAt, if_neg hsz]
    have hUF : ¬ (getStatus t index = NODE_USED ∨ getStatus t index = NODE_FULL) := by
      intro h
      rw [(cap_zero_iff t (d + 1) index hInv).2 h] at hcap
      omega
    rw [if_neg hUF]
    by_cases hU : getStatus t index = NODE_UNUSED
    · rw [if_pos hU]
      have hL : getStatus
          (setStatus (setStatus (setStatus t index NODE_SPLIT)
            (2 * index + 1) NODE_UNUSED) (2 * index + 2) NODE_UNUSED)
          (2 * index + 1) = NODE_UNUSED := by
        rw [getStatus_setStatus_ne _ _ _ _ (by norm_num [NODE_UNUSED]) (by omega),
          getStatus_setStatus_self _ _ _ (by norm_num [NODE_UNUSED])]
      have hsome := allocAt_unused_isSome min_level lvl 0 d _ (2 * index + 1)
        (level + 1) (by omega) hL
      rw [pow_zero] at hsome
      rcases hres : allocAt min_level lvl
          (setStatus (setStatus (setStatus t index NODE_SPLIT)
            (2 * index + 1) NODE_UNUSED) (2 * index + 2) NODE_UNUSED)
          1 (2 * index + 1) (level + 1) d with ⟨o, t2⟩
      rw [hres] at hsome
      cases o with
      | none => simp at hsome
      | some off => rfl
    · have hS : getStatus t index = NODE_SPLIT := by
        rcases status_cases t index with h | h | h | h
        · exact absurd h hU
        · exact absurd (Or.inl h) hUF
        · exact h
        · exact absurd (Or.inr h) hUF
      rw [if_neg hU]
      obtain ⟨hL, hR, _, _⟩ := hInv.1 hS
      rcases hlft : allocAt min_level lvl t 1 (2 * index + 1)
          (level + 1) d with ⟨o, t2⟩
      cases o with
      | some off => rfl
      | none =>
        -- the left child has no capacity, so the right one must
        have hcapL : freeCap t d (2 * index + 1) = 0 := by
          by_contra hc
          have := ih t (2 * index + 1) (level + 1) hL (by omega)
          rw [hlft] at this
          simp at this
        have ht2 : t2 = t := by
          have := allocAt_none_eq min_level lvl 0 d t (2 * index + 1)
            (level + 1) (by omega) (by rw [pow_zero, hlft])
          rw [pow_zero, hlft] at this
          exact this
        rw [ht2]
        have hcapR : 0 < freeCap t d (2 * index + 2) := by
          rw [freeCap_of_inner t d index (Or.inl hS)] at hcap
          omega
        exact ih t (2 * index + 2) (level + 1) hR hcapR

/-! ## Pointwise characterization of `_combine` -/

/-- The merge-stop of the `_combine` walk: starting from `index`,
climb while the buddy is UNUSED; return the node where the walk stops
together with the remaining fuel. -/
def mergeStop (t : Tree) : Nat → Nat → Nat × Nat
  | index, f =>
    if index = 0 ∨ getStatus t (buddyIdx index) ≠ NODE_UNUSED then (index, f)
    else match f with
      | 0 => (index, 0)
      | f' + 1 => mergeStop t (parentIdx index) f'

theorem mergeStop_stop (t : Tree) (i f : Nat)
    (h : i = 0 ∨ getStatus t (buddyIdx i) ≠ NODE_UNUSED) :
    mergeStop t i f = (i, f) := by
  rw [mergeStop.eq_def]
  dsimp only
  rw [if_pos h]

theorem mergeStop_up (t : Tree) (i f : Nat)
    (h : ¬ (i = 0 ∨ getStatus t (buddyIdx i) ≠ NODE_UNUSED)) :
    mergeStop t i (f + 1) = mergeStop t (parentIdx i) f := by
  rw [mergeStop.eq_def]
  dsimp only
  rw [if_neg h]

theorem mergeStop_le (f : Nat) : ∀ t i, (mergeStop t i f).1 ≤ i := by
  induction f with
  | zero =>
    intro t i
    by_cases h : i = 0 ∨ getStatus t (buddyIdx i) ≠ NODE_UNUSED
    · rw [mergeStop_stop t i 0 h]
    · rw [mergeStop.eq_def]
      dsimp only
      rw [if_neg h]
  | succ f ih =>
    intro t i
    by_cases h : i = 0 ∨ getStatus t (buddyIdx i) ≠ NODE_UNUSED
    · rw [mergeStop_stop t i (f + 1) h]
    · rw [mergeStop_up t i f h]
      refine le_trans (ih t (parentIdx i)) ?_
      unfold parentIdx
      omega

/-- With fuel at least the depth of `n`, the walk stops at the root or
at a node whose buddy is in use — exactly the stopping rule of the C
loop. -/
theorem mergeStop_spec (f : Nat) : ∀ t n, n + 1 < 2 ^ (f + 1) →
    ((mergeStop t n f).1 = 0 ∨
      getStatus t (buddyIdx (mergeStop t n f).1) ≠ NODE_UNUSED) := by
  induction f with
  | zero =>
    intro t n hn
    have h0 : n = 0 := by omega
    subst h0
    rw [mergeStop_stop t 0 0 (Or.inl rfl)]
    exact Or.inl rfl
  | succ f ih =>
    intro t n hn
    by_cases h : n = 0 ∨ getStatus t (buddyIdx n) ≠ NODE_UNUSED
    · rw [mergeStop_stop t n (f + 1) h]
      exact h
    · rw [mergeStop_up t n f h]
      refine ih t (parentIdx n) ?_
      have hn0 : n ≠ 0 := fun he => h (Or.inl he)
      have hp : (2 : Nat) ^ (f + 1 + 1) = 2 * 2 ^ (f + 1) := by ring
      unfold parentIdx
      omega

/-- The demote loop of `_combine` writes only at strict ancestors,
which have strictly smaller indices. -/
theorem demoteFull_frame (f : Nat) : ∀ t i m, i ≤ m →
    getStatus (demoteFull t i f) m = getStatus t m := by
  induction f with
  | zero =>
    intro t i m him
    by_cases h0 : i = 0
    · rw [h0, demoteFull_root]
    · by_cases hF : getStatus t (parentIdx i) = NODE_FULL
      · rw [demoteFull.eq_def]
        dsimp only
        rw [if_neg h0, if_pos hF]
      · rw [demoteFull_stop t i 0 h0 hF]
  | succ f ih =>
    intro t i m him
    by_cases h0 : i = 0
    · rw [h0, demoteFull_root]
    · by_cases hF : getStatus t (parentIdx i) = NODE_FULL
      · rw [demoteFull_step t i f h0 hF]
        have hpi : parentIdx i < i := by
          unfold parentIdx
          omega
        rw [ih _ _ m (by omega)]
        exact getStatus_setStatus_ne t _ _ m (by norm_num [NODE_SPLIT]) (by omega)
      · rw [demoteFull_stop t i (f + 1) h0 hF]

/-- `_combine` is: compute the merge stop, mark it UNUSED, run the
demote loop from it. -/
theorem combine_eq_mergeStop (f : Nat) : ∀ t n, n + 1 < 2 ^ (f + 1) →
    combine t n f =
      demoteFull (setStatus t (mergeStop t n f).1 NODE_UNUSED)
        (mergeStop t n f).1 (mergeStop t n f).2 := by
  induction f with
  | zero =>
    intro t n hn
    have h0 : n = 0 := by omega
    subst h0
    rw [mergeStop_stop t 0 0 (Or.inl rfl), combine_stop t 0 0 (Or.inl rfl)]
  | succ f ih =>
    intro t n hn
    by_cases h : n = 0 ∨ getStatus t (buddyIdx n) ≠ NODE_UNUSED
    · rw [mergeStop_stop t n (f + 1) h, combine_stop t n (f + 1) h]
    · rw [mergeStop_up t n f h, combine_up t n f h]
      refine ih t (parentIdx n) ?_
      have hn0 : n ≠ 0 := fun he => h (Or.inl he)
      have hp : (2 : Nat) ^ (f + 1 + 1) = 2 * 2 ^ (f + 1) := by ring
      unfold parentIdx
      omega

/-! ## Determinacy: the live list determines all reachable statuses -/

/-- Under the invariant, a node's status can be read off its subtree's
live list. -/
theorem status_from_liveList (t : Tree) (d index left : Nat)
    (hInv : Inv t d index) :
    getStatus t index =
      (if liveList t d index left = [] then NODE_UNUSED
       else if liveList t d index left = [(left, 2 ^ d)] then NODE_USED
       else if ((liveList t d index left).map Prod.snd).sum = 2 ^ d then NODE_FULL
       else NODE_SPLIT) := by
  have hp2 : (0 : Nat) < 2 ^ d := by positivity
  have hcs := @capSum t d index left hInv
  rcases status_cases t index with h | h | h | h
  · rw [liveList_of_unused t d index left h]
    simp [h, NODE_UNUSED]
  · rw [liveList_of_used t d index left h]
    simp [h, NODE_USED]
  · -- SPLIT
    cases d with
    | zero => exact absurd h hInv.1
    | succ d =>
      obtain ⟨_, _, hpos, hlt⟩ := hInv.1 h
      have hsum : ((liveList t (d + 1) index left).map Prod.snd).sum
          = 2 ^ (d + 1) - freeCap t (d + 1) index := by omega
      have hne : liveList t (d + 1) index left ≠ [] := by
        refine ne_nil_of_sum_pos _ ?_
        omega
      have hnfull : ((liveList t (d + 1) index left).map Prod.snd).sum ≠ 2 ^ (d + 1) := by
        omega
      have hnsing : liveList t (d + 1) index left ≠ [(left, 2 ^ (d + 1))] := by
        intro he
        rw [he] at hnfull
        simp at hnfull
      rw [if_neg hne, if_neg hnsing, if_neg hnfull, h]
      rfl
  · -- FULL
    cases d with
    | zero => exact absurd h hInv.2
    | succ d =>
      obtain ⟨_, _, h0⟩ := hInv.2 h
      have hsum : ((liveList t (d + 1) index left).map Prod.snd).sum = 2 ^ (d + 1) := by
        omega
      have hne : liveList t (d + 1) index left ≠ [] := by
        refine ne_nil_of_sum_pos _ ?_
        omega
      have hnsing : liveList t (d + 1) index left ≠ [(left, 2 ^ (d + 1))] := by
        intro he
        have hmem : (left, 2 ^ (d + 1)) ∈ liveList t (d + 1) index left := by
          rw [he]
          simp
        rw [liveList_of_inner t d index left (Or.inr h), List.mem_append] at hmem
        have hd2 : (2 : Nat) ^ (d + 1) = 2 ^ d + 2 ^ d := by ring
        have hpd : (0 : Nat) < 2 ^ d := by positivity
        rcases hmem with hm | hm
        · have := liveList_mem_bounds t d (left, 2 ^ (d + 1)) hm
          simp at this
          omega
        · have := liveList_mem_bounds t d (left, 2 ^ (d + 1)) hm
          simp at this
      rw [if_neg hne, if_neg hnsing, if_pos hsum, h]
      rfl

/-- Two invariant-satisfying trees with the same live list agree on
the statuses of all reachable nodes. -/
theorem statusTreeEqB_of_liveList (d : Nat) :
    ∀ t u index left, Inv t d index → Inv u d index →
      liveList t d index left = liveList u d index left →
      statusTreeEqB t u d index = true := by
  induction d with
  | zero =>
    intro t u index left hIt hIu heq
    have hst : getStatus t index = getStatus u index := by
      rw [status_from_liveList t 0 index left hIt,
        status_from_liveList u 0 index left hIu, heq]
    simp only [statusTreeEqB]
    rw [hst]
    simp
  | succ d ih =>
    intro t u index left hIt hIu heq
    have hst : getStatus t index = getStatus u index := by
      rw [status_from_liveList t (d + 1) index left hIt,
        status_from_liveList u (d + 1) index left hIu, heq]
    simp only [statusTreeEqB]
    rw [hst]
    simp only [beq_self_eq_true, Bool.true_and]
    by_cases hsf : getStatus u index = NODE_SPLIT ∨ getStatus u index = NODE_FULL
    · rw [if_pos hsf]
      have hsf_t : getStatus t index = NODE_SPLIT ∨ getStatus t index = NODE_FULL := by
        rw [hst]
        exact hsf
      have hItL : Inv t d (2 * index + 1) := by
        rcases hsf_t with h | h
        · exact (hIt.1 h).1
        · exact (hIt.2 h).1
      have hItR : Inv t d (2 * index + 2) := by
        rcases hsf_t with h | h
        · exact (hIt.1 h).2.1
        · exact (hIt.2 h).2.1
      have hIuL : Inv u d (2 * index + 1) := by
        rcases hsf with h | h
        · exact (hIu.1 h).1
        · exact (hIu.2 h).1
      have hIuR : Inv u d (2 * index + 2) := by
        rcases hsf with h | h
        · exact (hIu.1 h).2.1
        · exact (hIu.2 h).2.1
      have heqc : liveList t d (2 * index + 1) left
            = liveList u d (2 * index + 1) left ∧
          liveList t d (2 * index + 2) (left + 2 ^ d)
            = liveList u d (2 * index + 2) (left + 2 ^ d) := by
        have h1 := liveList_of_inner t d index left hsf_t
        have h2 := liveList_of_inner u d index left hsf
        rw [h1, h2] at heq
        refine concat_split (left + 2 ^ d) _ _ _ _ ?_ ?_ ?_ ?_ heq
        · intro p hp
          have := liveList_mem_bounds t d p hp
          omega
        · intro p hp
          exact (liveList_mem_bounds t d p hp).1
        · intro p hp
          have := liveList_mem_bounds u d p hp
          omega
        · intro p hp
          exact (liveList_mem_bounds u d p hp).1
      rw [Bool.and_eq_true]
      exact ⟨ih t u (2 * index + 1) left hItL hIuL heqc.1,
        ih t u (2 * index + 2) (left + 2 ^ d) hItR hIuR heqc.2⟩
    · rw [if_neg hsf]

/-! ## The spec-side tree-consistency invariant -/

/-- The structural invariant implies the spec's Boolean
tree-consistency check. -/
theorem claimInvB_of_Inv (d : Nat) :
    ∀ t index, Inv t d index → claimInvB t d index = true := by
  induction d with
  | zero =>
    intro t index hInv
    simp only [claimInvB, Bool.and_eq_true, Bool.not_eq_true', beq_eq_false_iff_ne]
    exact ⟨hInv.1, hInv.2⟩
  | succ d ih =>
    intro t index hInv
    simp only [claimInvB]
    by_cases h : getStatus t index = NODE_SPLIT ∨ getStatus t index = NODE_FULL
    · rw [if_pos h]
      rcases h with h | h
      · obtain ⟨hL, hR, hpos, _⟩ := hInv.1 h
        rw [if_neg (by rw [h]; norm_num [NODE_SPLIT, NODE_FULL])]
        simp [ih t _ hL, ih t _ hR, hpos]
      · obtain ⟨hL, hR, h0⟩ := hInv.2 h
        rw [if_pos h]
        simp [ih t _ hL, ih t _ hR, h0]
    · rw [if_neg h]

/-! ## The claims -/

/-- C1: the claim states that construction fails if and only if
`total_level - min_level < 2` (as a mathematical integer comparison) or
`min_level < 4`, and in particular that every pair with
`min_level > total_level` must fail.  The code computes
`level - min_level` in unsigned arithmetic, so for `level = 4`,
`min_level = 8` the difference wraps to `2^32 - 4`, both guards pass,
and construction proceeds (returning a pool object) even though the
mathematical difference `4 - 8 < 2` demands failure: a code bug. -/
theorem claim_C1 :
    ((4 : Int) - 8 < 2) ∧ (buddy_from_buffer 4 8).isSome = true := by
  refine ⟨by decide, by decide⟩

/-- C2, counterexample: on a fresh pool with `min_level = 4`,
`lvl = total_level - min_level = 6`, allocating 16 bytes (returning
byte offset 32) and freeing it does NOT restore the status tree byte
array entry for entry: byte 16 (holding the statuses of nodes 64–67)
differs from the fresh pool, because `_combine` marks only the
merge-stop node UNUSED and leaves the stale USED status of the freed
leaf in place. -/
theorem claim_C2_counterexample :
    (buddy_alloc 4 6 (freshTree 4 6) 16).1.isSome = true ∧
    (buddy_free 4 6 (buddy_alloc 4 6 (freshTree 4 6) 16).2 32).isSome = true ∧
    ((buddy_free 4 6 (buddy_alloc 4 6 (freshTree 4 6) 16).2 32).getD zeroTree) 16
      ≠ freshTree 4 6 16 := by
  refine ⟨by decide, by decide, by decide⟩

/-- C2, amended: after any sequence of allocations that are
subsequently all freed (in any order), the pool agrees with a freshly
constructed pool of the same parameters on the statuses of all
REACHABLE nodes (the nodes the tree walks can observe); the raw byte
array may retain stale bits below merge-stop nodes. -/
theorem claim_C2_amended (min_level lvl : Nat) (t : Tree)
    (h1 : 1 ≤ lvl) (hlm : lvl + min_level ≤ 30)
    (hreach : Reach min_level lvl t []) :
    statusTreeEqB t (freshTree min_level lvl) lvl 0 = true := by
  obtain ⟨hInv, hperm⟩ := Reach_master min_level lvl h1 hlm t [] hreach
  obtain ⟨hInvF, hLF⟩ := freshTree_spec min_level lvl h1 hlm
  have hL : liveList t lvl 0 0 = [(0, allocUnit min_level (2 ^ (lvl - 1)))] :=
    List.perm_singleton.1 hperm
  exact statusTreeEqB_of_liveList lvl t (freshTree min_level lvl) 0 0 hInv hInvF
    (by rw [hL, hLF])

/-- C2, witness for the amended theorem: the concrete
allocate-16-then-free round trip on the fresh `(min_level, lvl) =
(4, 6)` pool agrees with the fresh pool on all reachable nodes. -/
theorem claim_C2_amended_witness :
    statusTreeEqB
      ((buddy_free 4 6 (buddy_alloc 4 6 (freshTree 4 6) 16).2 32).getD zeroTree)
      (freshTree 4 6) 6 0 = true := by
  have hb : (buddy_alloc 4 6 (freshTree 4 6) 16).1 = some 32 := by decide
  have hA : buddy_alloc 4 6 (freshTree 4 6) 16
      = (some 32, (buddy_alloc 4 6 (freshTree 4 6) 16).2) := by
    rw [← hb]
  have hs : (buddy_free 4 6 (buddy_alloc 4 6 (freshTree 4 6) 16).2 32).isSome
      = true := by decide
  obtain ⟨t2, ht2⟩ := Option.isSome_iff_exists.1 hs
  have hF : buddy_free 4 6 (buddy_alloc 4 6 (freshTree 4 6) 16).2 32
      = some ((buddy_free 4 6 (buddy_alloc 4 6 (freshTree 4 6) 16).2 32).getD
          zeroTree) := by
    rw [ht2]
    rfl
  have r1 : Reach 4 6 (buddy_alloc 4 6 (freshTree 4 6) 16).2
      [((32 : Nat) >>> 4, allocUnit 4 16)] :=
    Reach.alloc (freshTree 4 6) [] 16 32 _ Reach.init (by norm_num) hA
  have r2 : Reach 4 6
      ((buddy_free 4 6 (buddy_alloc 4 6 (freshTree 4 6) 16).2 32).getD zeroTree)
      ([((32 : Nat) >>> 4, allocUnit 4 16)].erase ((32 : Nat) >>> 4, allocUnit 4 16)) :=
    Reach.free _ _ ((32 : Nat) >>> 4) (allocUnit 4 16) 32 _ r1 (by simp) rfl hF
  exact claim_C2_amended 4 6 _ (by norm_num) (by norm_num) r2

/-- C3, counterexample: the claim promises that the returned block is
never smaller than `s` and that an oversize rounded request is
rejected.  `next_pow_of_2` truncates the `size_t` request to 32 bits,
so requesting `2^32 + 16` bytes on a 1024-byte pool SUCCEEDS and hands
out a 16-byte block (`allocUnit * 2^min_level = 16 < 2^32 + 16`). -/
theorem claim_C3_counterexample :
    (buddy_alloc 4 6 (freshTree 4 6) (2 ^ 32 + 16)).1.isSome = true ∧
    allocUnit 4 (2 ^ 32 + 16) * 2 ^ 4 < 2 ^ 32 + 16 := by
  refine ⟨by decide, by decide⟩

/-- C3, amended: restricted to requests `s ≤ 2^30` (where no 32-bit
truncation or int overflow occurs) the claim holds: a successful
allocation carves out a live block of exactly `expectedSize` bytes,
`expectedSize` is `2^min_level` for `s ≤ 2^min_level` and the next
power of two otherwise (a power of two, at least `s`, at least
`2^min_level`, and minimal: below `2*s` unless it is the minimum);
and if `expectedSize` exceeds the pool size the call fails
immediately. -/
theorem claim_C3_amended (min_level lvl : Nat) (t : Tree) (s : Nat)
    (hs : s ≤ 2 ^ 30) (hInv : Inv t lvl 0) :
    (∀ b T, buddy_alloc min_level lvl t s = (some b, T) →
      ∃ σ pre suf,
        liveList T lvl 0 0 = pre ++ (b >>> min_level, 2 ^ σ) :: suf ∧
        2 ^ (σ + min_level) = expectedSize min_level s ∧
        s ≤ expectedSize min_level s ∧
        2 ^ min_level ≤ expectedSize min_level s ∧
        (expectedSize min_level s < 2 * s ∨
          expectedSize min_level s = 2 ^ min_level)) ∧
    (2 ^ (lvl + min_level) < expectedSize min_level s →
      (buddy_alloc min_level lvl t s).1 = none) := by
  obtain ⟨σ, hσ, hexp, hsle, hmle, hub⟩ := allocUnit_spec min_level s hs
  constructor
  · intro b T hres
    obtain ⟨_, ⟨pre, suf, _, hl2⟩, _, _, _⟩ :=
      buddy_alloc_some_spec min_level lvl t s b T hs hInv hres
    rw [hσ] at hl2
    exact ⟨σ, pre, suf, hl2, hexp.symm, hsle, hmle, hub⟩
  · intro hover
    have hσl : lvl < σ := by
      rw [hexp] at hover
      have := (Nat.pow_lt_pow_iff_right (show 1 < 2 by norm_num)).1 hover
      omega
    simp only [buddy_alloc, hσ]
    rw [if_pos (Nat.pow_lt_pow_right (by norm_num) hσl)]

/-- C3, witness for the amended theorem at `(min_level, lvl) = (4, 6)`,
`s = 16`, on the fresh pool. -/
theorem claim_C3_amended_witness :
    (∀ b T, buddy_alloc 4 6 (freshTree 4 6) 16 = (some b, T) →
      ∃ σ pre suf,
        liveList T 6 0 0 = pre ++ (b >>> 4, 2 ^ σ) :: suf ∧
        2 ^ (σ + 4) = expectedSize 4 16 ∧
        16 ≤ expectedSize 4 16 ∧
        2 ^ 4 ≤ expectedSize 4 16 ∧
        (expectedSize 4 16 < 2 * 16 ∨ expectedSize 4 16 = 2 ^ 4)) ∧
    (2 ^ (6 + 4) < expectedSize 4 16 →
      (buddy_alloc 4 6 (freshTree 4 6) 16).1 = none) :=
  claim_C3_amended 4 6 (freshTree 4 6) 16 (by norm_num)
    (freshTree_spec 4 6 (by norm_num) (by norm_num)).1

/-- C4: a failed allocation (for any reason) leaves the status tree
untouched, for every request in the sane range `s ≤ 2^30` (beyond it
the C code's `(int)` conversions are implementation-defined). -/
theorem claim_C4 (min_level lvl : Nat) (t : Tree) (s : Nat) (hs : s ≤ 2 ^ 30)
    (hnone : (buddy_alloc min_level lvl t s).1 = none) :
    (buddy_alloc min_level lvl t s).2 = t :=
  buddy_alloc_none_spec min_level lvl t s hs hnone

/-- C4, witness: a 2^30-byte request on a 1024-byte pool fails and
leaves the (zeroed) tree unchanged. -/
theorem claim_C4_witness :
    (buddy_alloc 4 6 zeroTree (2 ^ 30)).1 = none ∧
    (buddy_alloc 4 6 zeroTree (2 ^ 30)).2 = zeroTree :=
  ⟨by decide, claim_C4 4 6 zeroTree (2 ^ 30) (by norm_num) (by decide)⟩

/-- C5: in every reachable state, the byte ranges of any two distinct
live blocks are disjoint, and every caller allocation lies entirely at
or beyond the `2^(lvl-1)`-byte reserved metadata region at the front
of the pool (the metadata block itself is the live block at unit
offset 0, whose byte size is at least `2^(lvl-1)`). -/
theorem claim_C5 (min_level lvl : Nat) (t : Tree) (gl : List (Nat × Nat))
    (h1 : 1 ≤ lvl) (hlm : lvl + min_level ≤ 30)
    (hreach : Reach min_level lvl t gl) :
    (∀ p ∈ liveList t lvl 0 0, ∀ q ∈ liveList t lvl 0 0, p ≠ q →
      p.1 * 2 ^ min_level + p.2 * 2 ^ min_level ≤ q.1 * 2 ^ min_level ∨
      q.1 * 2 ^ min_level + q.2 * 2 ^ min_level ≤ p.1 * 2 ^ min_level) ∧
    (∀ p ∈ gl, 2 ^ (lvl - 1) ≤ p.1 * 2 ^ min_level) := by
  obtain ⟨hInv, hperm⟩ := Reach_master min_level lvl h1 hlm t gl hreach
  have hdisj : ∀ p ∈ liveList t lvl 0 0, ∀ q ∈ liveList t lvl 0 0, p ≠ q →
      p.1 + p.2 ≤ q.1 ∨ q.1 + q.2 ≤ p.1 := by
    have hpair := (@liveList_sorted t lvl 0 0).imp
      (fun h => Or.inl h :
        ∀ {a b : Nat × Nat}, a.1 + a.2 ≤ b.1 → a.1 + a.2 ≤ b.1 ∨ b.1 + b.2 ≤ a.1)
    intro p hp q hq hne
    exact List.Pairwise.forall (fun a b h => h.symm) hpair hp hq hne
  constructor
  · intro p hp q hq hne
    rcases hdisj p hp q hq hne with h | h
    · left
      have h2 : (p.1 + p.2) * 2 ^ min_level ≤ q.1 * 2 ^ min_level :=
        Nat.mul_le_mul_right _ h
      rw [add_mul] at h2
      exact h2
    · right
      have h2 : (q.1 + q.2) * 2 ^ min_level ≤ p.1 * 2 ^ min_level :=
        Nat.mul_le_mul_right _ h
      rw [add_mul] at h2
      exact h2
  · intro p hp
    have hpL : p ∈ liveList t lvl 0 0 :=
      hperm.mem_iff.2 (List.mem_cons_of_mem _ hp)
    have h0L : (0, allocUnit min_level (2 ^ (lvl - 1))) ∈ liveList t lvl 0 0 :=
      hperm.mem_iff.2 (List.mem_cons_self _ _)
    have hnodup := (hperm.nodup_iff).1 (liveList_nodup t lvl)
    have hne : p ≠ (0, allocUnit min_level (2 ^ (lvl - 1))) := fun he =>
      (List.nodup_cons.1 hnodup).1 (he ▸ hp)
    have hbp := liveList_mem_bounds t lvl p hpL
    rcases hdisj _ h0L p hpL (Ne.symm hne) with h | h
    · -- the metadata block ends before p starts
      have hw : allocUnit min_level (2 ^ (lvl - 1)) ≤ p.1 := by simpa using h
      obtain ⟨σ, hσ, hexp, hsle, _, _⟩ := allocUnit_spec min_level (2 ^ (lvl - 1))
        (Nat.pow_le_pow_right (by norm_num) (by omega))
      have hbytes : 2 ^ (lvl - 1) ≤ allocUnit min_level (2 ^ (lvl - 1)) * 2 ^ min_level := by
        rw [hσ, ← pow_add]
        rw [hexp] at hsle
        exact hsle
      exact le_trans hbytes (Nat.mul_le_mul_right _ hw)
    · -- p would end at or before byte 0: impossible
      exfalso
      simp at h
      omega

/-- C5, witness: the fresh `(4, 6)` pool (metadata block only). -/
theorem claim_C5_witness :
    (∀ p ∈ liveList (freshTree 4 6) 6 0 0, ∀ q ∈ liveList (freshTree 4 6) 6 0 0,
      p ≠ q →
      p.1 * 2 ^ 4 + p.2 * 2 ^ 4 ≤ q.1 * 2 ^ 4 ∨
      q.1 * 2 ^ 4 + q.2 * 2 ^ 4 ≤ p.1 * 2 ^ 4) ∧
    (∀ p ∈ ([] : List (Nat × Nat)), 2 ^ (6 - 1) ≤ p.1 * 2 ^ 4) :=
  claim_C5 4 6 (freshTree 4 6) [] (by norm_num) (by norm_num) Reach.init

/-- C6: every reachable state satisfies the spec's tree-consistency
invariant (FULL only with zero free capacity beneath, SPLIT only with
some free capacity, leaves never SPLIT or FULL). -/
theorem claim_C6 (min_level lvl : Nat) (t : Tree) (gl : List (Nat × Nat))
    (h1 : 1 ≤ lvl) (hlm : lvl + min_level ≤ 30)
    (hreach : Reach min_level lvl t gl) :
    claimInvB t lvl 0 = true :=
  claimInvB_of_Inv lvl t 0 (Reach_master min_level lvl h1 hlm t gl hreach).1

/-- C6, witness: the fresh `(4, 6)` pool. -/
theorem claim_C6_witness : claimInvB (freshTree 4 6) 6 0 = true :=
  claim_C6 4 6 (freshTree 4 6) [] (by norm_num) (by norm_num) Reach.init

/-- C7, counterexample: the claim says a free with an offset not
corresponding to any live allocation fails the assertion.  On the
fresh `(4, 6)` pool after allocating 16 bytes, the live byte offsets
are exactly 0 (metadata) and 32, yet `free` at byte offset 33 — inside
the block but not a live allocation's offset — SUCCEEDS, because the
`>> min_level` conversion silently discards the low bits. -/
theorem claim_C7_counterexample :
    (buddy_free 4 6 (buddy_alloc 4 6 (freshTree 4 6) 16).2 33).isSome = true ∧
    (liveList (buddy_alloc 4 6 (freshTree 4 6) 16).2 6 0 0).map
      (fun p => p.1 * 2 ^ 4) = [0, 32] ∧
    ¬ ((33 : Nat) ∈ [(0 : Nat), 32]) := by
  refine ⟨by decide, by decide, by decide⟩

/-- C7, amended: on an invariant-satisfying pool, `free(pool, b)`
completes without a failing assertion if and only if the unit offset
`b >> min_level` is the offset of a live block (so the precise
granularity of the check is the unit offset, not the byte offset). -/
theorem claim_C7_amended (min_level lvl : Nat) (t : Tree) (b : Nat)
    (hInv : Inv t lvl 0) :
    ((buddy_free min_level lvl t b).isSome = true ↔
      b >>> min_level ∈ (liveList t lvl 0 0).map Prod.fst) := by
  constructor
  · intro hs
    by_contra hmem
    rw [buddy_free_invalid min_level lvl t b hmem] at hs
    simp at hs
  · intro hmem
    rw [List.mem_map] at hmem
    obtain ⟨p, hp, hfst⟩ := hmem
    have hpmem : (b >>> min_level, p.2) ∈ liveList t lvl 0 0 := by
      rw [← hfst]
      exact hp
    obtain ⟨T, hfa, _⟩ := buddy_free_spec min_level lvl t b p.2 hInv hpmem
    rw [hfa]
    rfl

/-- C7, witness for the amended theorem: freeing byte offset 0 (the
metadata block) on the fresh pool. -/
theorem claim_C7_amended_witness :
    ((buddy_free 4 6 (freshTree 4 6) 0).isSome = true ↔
      (0 : Nat) >>> 4 ∈ (liveList (freshTree 4 6) 6 0 0).map Prod.fst) :=
  claim_C7_amended 4 6 (freshTree 4 6) 0
    (freshTree_spec 4 6 (by norm_num) (by norm_num)).1

/-- C8, counterexample: the claim says the found USED node becomes
UNUSED.  On the fresh `(4, 6)` pool, allocate 16 bytes (node 65
becomes USED), then free it: the merge walk climbs past node 65
(buddies UNUSED) and node 65 KEEPS its stale USED status after the
free. -/
theorem claim_C8_counterexample :
    getStatus (buddy_alloc 4 6 (freshTree 4 6) 16).2 65 = NODE_USED ∧
    (buddy_free 4 6 (buddy_alloc 4 6 (freshTree 4 6) 16).2 32).isSome = true ∧
    getStatus ((buddy_free 4 6 (buddy_alloc 4 6 (freshTree 4 6) 16).2 32).getD
      zeroTree) 65 = NODE_USED := by
  refine ⟨by decide, by decide, by decide⟩

/-- C8, amended: `_combine` computes the merge stop (climb while the
buddy is UNUSED; stop at the root or at a buddy in use), writes UNUSED
at exactly that stop node, and runs the FULL-to-SPLIT demote loop
upward from it; every node with an index larger than the stop — in
particular the freed node itself and the whole collapsed subtree —
keeps its previous (stale) status. -/
theorem claim_C8_amended (t : Tree) (n f : Nat) (hn : n + 1 < 2 ^ (f + 1)) :
    combine t n f
      = demoteFull (setStatus t (mergeStop t n f).1 NODE_UNUSED)
          (mergeStop t n f).1 (mergeStop t n f).2 ∧
    (mergeStop t n f).1 ≤ n ∧
    ((mergeStop t n f).1 = 0 ∨
      getStatus t (buddyIdx (mergeStop t n f).1) ≠ NODE_UNUSED) ∧
    (∀ m, (mergeStop t n f).1 < m → getStatus (combine t n f) m = getStatus t m) ∧
    getStatus (combine t n f) (mergeStop t n f).1 = NODE_UNUSED := by
  have hc := combine_eq_mergeStop f t n hn
  refine ⟨hc, mergeStop_le f t n, mergeStop_spec f t n hn, ?_, ?_⟩
  · intro m hm
    rw [hc, demoteFull_frame _ _ _ m (by omega)]
    exact getStatus_setStatus_ne t _ _ m (by norm_num [NODE_UNUSED]) (by omega)
  · rw [hc, demoteFull_frame _ _ _ _ (le_refl _)]
    exact getStatus_setStatus_self t _ _ (by norm_num [NODE_UNUSED])

/-- C8, witness for the amended theorem: freeing node 65 on an
all-UNUSED tree merges all the way to the root (stop node 0), which
becomes UNUSED, while node 65 keeps its status. -/
theorem claim_C8_amended_witness :
    getStatus (combine zeroTree 65 6) (mergeStop zeroTree 65 6).1 = NODE_UNUSED ∧
    getStatus (combine zeroTree 65 6) 65 = getStatus zeroTree 65 :=
  ⟨(claim_C8_amended zeroTree 65 6 (by norm_num)).2.2.2.2,
   (claim_C8_amended zeroTree 65 6 (by norm_num)).2.2.2.1 65 (by decide)⟩

/-- C9: the status codec round-trips — writing status `st < 4` at node
`i` reads back `st` at `i` and leaves every other node's status
unchanged. -/
theorem claim_C9 (t : Tree) (i j st : Nat) (hst : st < 4) (hne : j ≠ i) :
    getStatus (setStatus t i st) i = st ∧
    getStatus (setStatus t i st) j = getStatus t j :=
  ⟨getStatus_setStatus_self t i st hst, getStatus_setStatus_ne t i st j hst hne⟩

/-- C9, witness: node 5, status 3, neighbour node 6 (same byte). -/
theorem claim_C9_witness :
    getStatus (setStatus zeroTree 5 3) 5 = 3 ∧
    getStatus (setStatus zeroTree 5 3) 6 = getStatus zeroTree 6 :=
  claim_C9 zeroTree 5 6 3 (by norm_num) (by norm_num)

/-- C10: a zero-byte request is not rejected — `buddy_alloc` treats it
exactly like any request of at most `2^min_level` bytes, and on an
invariant-satisfying pool with free capacity it succeeds and marks a
full minimum-size block (one unit, `2^min_level` bytes) live. -/
theorem claim_C10 (min_level lvl : Nat) (t : Tree) (s : Nat)
    (hs : s ≤ 2 ^ min_level) (hInv : Inv t lvl 0) (hcap : 0 < freeCap t lvl 0) :
    buddy_alloc min_level lvl t 0 = buddy_alloc min_level lvl t s ∧
    ∃ b T, buddy_alloc min_level lvl t 0 = (some b, T) ∧
      ∃ pre suf, liveList T lvl 0 0 = pre ++ (b >>> min_level, 1) :: suf := by
  have hu0 : allocUnit min_level 0 = 1 := by
    unfold allocUnit
    rw [if_pos (Nat.zero_le _)]
  have hus : allocUnit min_level s = 1 := by
    unfold allocUnit
    rw [if_pos hs]
  constructor
  · unfold buddy_alloc
    rw [hu0, hus]
  · have hguard : ¬ (2 ^ lvl < 1) := by
      have : (0 : Nat) < 2 ^ lvl := by positivity
      omega
    have hiss : (buddy_alloc min_level lvl t 0).1.isSome = true := by
      unfold buddy_alloc
      rw [hu0, if_neg hguard]
      exact allocAt_one_isSome min_level lvl lvl t 0 0 hInv hcap
    obtain ⟨b, hb⟩ := Option.isSome_iff_exists.1 hiss
    refine ⟨b, (buddy_alloc min_level lvl t 0).2, by rw [← hb], ?_⟩
    obtain ⟨_, ⟨pre, suf, _, hl2⟩, _, _, _⟩ :=
      buddy_alloc_some_spec min_level lvl t 0 b _ (by norm_num) hInv (by rw [← hb])
    rw [hu0] at hl2
    exact ⟨pre, suf, hl2⟩

/-- C10, witness: a zero-byte request on the fresh `(4, 6)` pool. -/
theorem claim_C10_witness :
    buddy_alloc 4 6 (freshTree 4 6) 0 = buddy_alloc 4 6 (freshTree 4 6) 16 ∧
    ∃ b T, buddy_alloc 4 6 (freshTree 4 6) 0 = (some b, T) ∧
      ∃ pre suf, liveList T 6 0 0 = pre ++ (b >>> 4, 1) :: suf :=
  claim_C10 4 6 (freshTree 4 6) 16 (by norm_num)
    (freshTree_spec 4 6 (by norm_num) (by norm_num)).1 (by decide)

end BuddyAlloc
